import Mathlib

/-! # rrt_server: a verification development for `rrt_search_module.h`

Shallow embedding of the planner of `include/rrt_search_module.h`.

* `double` values are exact rationals (`ℚ`); the rounding of `double` arithmetic is not
  modelled.
* `float` values are the rationals that binary32 represents. The source narrows a `double`
  to `float` where it fills a `pcl::PointXYZ`, an `Eigen::Vector4f` or a `float` variable;
  `to_float` is that conversion (round to nearest, ties to even, subnormal range
  included). Magnitudes beyond the largest binary32 value, which the conversion sends to
  an infinity, are outside the model.
* A point cloud is the list of its points.
* The random draws of a growth step and the readings of the system clock are
  explicit arguments.
* Nodes are addressed by `NodePtr`; the objects allocated with `new Node` live in
  `State.heap` in allocation order.
-/

namespace rrt_server

/-! ## Vectors -/

/-- Value of an `Eigen::Vector3d`. -/
structure Vector3d where
  x : ℚ
  y : ℚ
  z : ℚ
deriving DecidableEq

/-- Value of an `Eigen::Vector4d`, used for a no fly zone `(x_min, x_max, y_min, y_max)`. -/
structure Vector4d where
  c0 : ℚ
  c1 : ℚ
  c2 : ℚ
  c3 : ℚ
deriving DecidableEq

namespace Vector3d

/-- Componentwise sum, `a + b`. -/
def add (a b : Vector3d) : Vector3d := ⟨a.x + b.x, a.y + b.y, a.z + b.z⟩

/-- Componentwise difference, `a - b`. -/
def sub (a b : Vector3d) : Vector3d := ⟨a.x - b.x, a.y - b.y, a.z - b.z⟩

/-- Product with a scalar on the left, `k * a`. -/
def smul (k : ℚ) (a : Vector3d) : Vector3d := ⟨k * a.x, k * a.y, k * a.z⟩

/-- Quotient by a scalar, `a / k`. -/
def div (a : Vector3d) (k : ℚ) : Vector3d := ⟨a.x / k, a.y / k, a.z / k⟩

/-- Square of the Euclidean norm, `a.squaredNorm()`. -/
def squaredNorm (a : Vector3d) : ℚ := a.x * a.x + a.y * a.y + a.z * a.z

end Vector3d

/-! ## rrt_utility -/

/-- Least natural number `n` with `k ≤ n * n`, searched upwards from `n` with `fuel` steps. -/
def ceil_sqrt_from (k : ℕ) : ℕ → ℕ → ℕ
  | 0, n => n
  | fuel + 1, n => if k ≤ n * n then n else ceil_sqrt_from k fuel (n + 1)

/-- Least natural number whose square is at least `k`, that is `⌈√k⌉`. -/
def ceil_sqrt (k : ℕ) : ℕ := ceil_sqrt_from k k 0

/-- The subdivision count `int n = ceil((p - q).norm() / obs_threshold)` of
`check_line_validity_with_pcl`, as a function of `v = p - q`. For a positive threshold
`⌈√(v·v) / t⌉ = ⌈√⌈v·v / t²⌉⌉`, which is computed with integers only. For a threshold that
is not positive the quotient is non-positive, infinite or not a number; every count below
`2` gives the same single sample in `linspace`, and `0` stands for it here. -/
def ceil_norm_div (v : Vector3d) (obs_threshold : ℚ) : ℤ :=
  if 0 < obs_threshold then
    (ceil_sqrt ⌈v.squaredNorm / (obs_threshold * obs_threshold)⌉₊ : ℤ)
  else 0

/-- Nearest integer to `y`, a tie going to the even neighbour. -/
def round_half_even (y : ℚ) : ℤ :=
  let f := ⌊y⌋
  let r := y - f
  if r < 1 / 2 then f
  else if 1 / 2 < r then f + 1
  else if f % 2 = 0 then f else f + 1

/-- Halving `n` until it is below `2`, at most `fuel` times, counting the steps. -/
def floor_log2_from : ℕ → ℕ → ℕ
  | 0, _ => 0
  | fuel + 1, n => if 2 ≤ n then floor_log2_from fuel (n / 2) + 1 else 0

/-- The number `⌊log₂ n⌋` for `n ≥ 1`. -/
def floor_log2 (n : ℕ) : ℕ := floor_log2_from n n

/-- The binary exponent of a positive rational: the integer `e` with `2 ^ e ≤ y < 2 ^ (e + 1)`. -/
def binade (y : ℚ) : ℤ :=
  if 1 ≤ y then (floor_log2 ⌊y⌋₊ : ℤ)
  else
    let m := ⌈1 / y⌉₊
    if m ≤ 1 then 0 else -((floor_log2 (m - 1) + 1 : ℕ) : ℤ)

/-- The power `2 ^ k` of an integer exponent. -/
def pow2 (k : ℤ) : ℚ :=
  if 0 ≤ k then ((2 ^ k.toNat : ℕ) : ℚ) else 1 / ((2 ^ (-k).toNat : ℕ) : ℚ)

/-- The conversion of a `double` to `float`, as in `float radius = (float)c`: the nearest
multiple of the spacing of binary32 at `x`, which is `2 ^ (e - 23)` with `e` the binary
exponent of `x`, not below the exponent `-126` of the subnormal range; a tie goes to the
even multiple. A magnitude beyond the largest binary32 value, which the conversion sends
to an infinity, is rounded in the same way here: such values are outside the model. -/
def to_float (x : ℚ) : ℚ :=
  if x = 0 then 0
  else
    let e := max (binade |x|) (-126)
    let quantum := pow2 (e - 23)
    (round_half_even (x / quantum) : ℚ) * quantum

/-- The three coordinates of a `double` vector narrowed to `float`. -/
def narrow_to_float (v : Vector3d) : Vector3d := ⟨to_float v.x, to_float v.y, to_float v.z⟩

/-- Modelled from the spec: `pcl::CropBox` is a library routine outside this repository;
following §4.1 (`boxQuery`) a point is kept when each coordinate lies between the minimum
and the maximum corner, bounds included. -/
def crop_box_filter (min max : Vector3d) (_pc : List Vector3d) : List Vector3d :=
  _pc.filter (fun o =>
    decide (min.x ≤ o.x ∧ o.x ≤ max.x ∧ min.y ≤ o.y ∧ o.y ≤ max.y ∧ min.z ≤ o.z ∧ o.z ≤ max.z))

/-- Filter/Crop point cloud with the dimensions given. The corners are computed in
`double` and handed to the filter as `Eigen::Vector4f(min.x(), min.y(), min.z(), 1.0)` and
`Eigen::Vector4f(max.x(), max.y(), max.z(), 1.0)`, that is, narrowed to `float`. -/
def pcl_ptr_box_crop (_pc : List Vector3d) (centroid dimension : Vector3d) : List Vector3d :=
  let min := centroid.sub (dimension.div 2)
  let max := centroid.add (dimension.div 2)
  crop_box_filter (narrow_to_float min) (narrow_to_float max) _pc

/-- The body of the loop of `linspace`: `k` more values, each the previous one plus `delta`. -/
def linspace_loop (delta : ℚ) : ℕ → ℚ → List ℚ
  | 0, _ => []
  | k + 1, last => (last + delta) :: linspace_loop delta k (last + delta)

/-- The function `linspace(min, max, n)`: `min` is pushed first, then the loop runs for
`i = 1 .. n - 1`. When `n = 1` the C++ quotient is infinite or not a number and is never
used, since the loop does not run. -/
def linspace (min max : ℚ) (n : ℤ) : List ℚ :=
  let delta := (max - min) / ((n : ℚ) - 1)
  min :: linspace_loop delta (n - 1).toNat min

/-- Modelled from the spec: `pcl::KdTreeFLANN::radiusSearch` is a library routine outside
this repository; following §4.1 (`radiusQuery`) it reports the points whose squared
distance to the query point is at most the squared radius. -/
def radiusSearch (obs : List Vector3d) (searchPoint : Vector3d) (radius : ℚ) :
    List Vector3d :=
  obs.filter (fun o => decide ((searchPoint.sub o).squaredNorm ≤ radius * radius))

/-- The function `kdtree_collide_pcl_bool`: the coordinates of `point` are stored in a
`pcl::PointXYZ searchPoint` and the radius is `float radius = (float)c`, both narrowed to
`float`; the result is true when the radius search around `searchPoint` finds a point of
`obs`. -/
def kdtree_collide_pcl_bool (point : Vector3d) (obs : List Vector3d) (c : ℚ) : Bool :=
  let searchPoint := narrow_to_float point
  let radius := to_float c
  let found := radiusSearch obs searchPoint radius
  if 0 < found.length then true else false

/-- The samples `line_vector` of `check_line_validity_with_pcl`: the three `linspace`
lists recombined index by index. -/
def line_vector (p q : Vector3d) (n : ℤ) : List Vector3d :=
  List.zipWith3 (fun a b c => Vector3d.mk a b c)
    (linspace p.x q.x n) (linspace p.y q.y n) (linspace p.z q.z n)

/-- The second loop of `check_line_validity_with_pcl`, over the samples in order. -/
def check_line_loop (local_obs : List Vector3d) (clearance_crop : Vector3d)
    (obs_threshold : ℚ) : List Vector3d → Bool
  | [] => true
  | point_in_line_vector :: rest =>
    let sub_local_obs := pcl_ptr_box_crop local_obs point_in_line_vector clearance_crop
    if sub_local_obs.length = 0 then
      check_line_loop local_obs clearance_crop obs_threshold rest
    else if kdtree_collide_pcl_bool point_in_line_vector sub_local_obs obs_threshold then
      false
    else
      check_line_loop local_obs clearance_crop obs_threshold rest

/-- The function `check_line_validity_with_pcl`. -/
def check_line_validity_with_pcl (p q : Vector3d) (obs_threshold : ℚ)
    (obs : List Vector3d) : Bool :=
  let n : ℤ := ceil_norm_div (p.sub q) obs_threshold
  let valid_origin := (p.add q).div 2
  let abs_pq_vector : Vector3d := ⟨|(p.sub q).x|, |(p.sub q).y|, |(p.sub q).z|⟩
  let local_map_size :=
    abs_pq_vector.add ⟨2 * obs_threshold, 2 * obs_threshold, 2 * obs_threshold⟩
  let local_obs := pcl_ptr_box_crop obs valid_origin local_map_size
  if local_obs.length = 0 then true
  else
    let clearance_crop : Vector3d := ⟨2 * obs_threshold, 2 * obs_threshold, 2 * obs_threshold⟩
    check_line_loop local_obs clearance_crop obs_threshold (line_vector p q n)

/-! ### Frame transform -/

/-- Value of an `Eigen::Quaterniond`. -/
structure Quaterniond where
  w : ℚ
  x : ℚ
  y : ℚ
  z : ℚ
deriving DecidableEq

namespace Quaterniond

/-- Hamilton product of two quaternions, `a * b`. -/
def mul (a b : Quaterniond) : Quaterniond :=
  ⟨a.w * b.w - a.x * b.x - a.y * b.y - a.z * b.z,
   a.w * b.x + a.x * b.w + a.y * b.z - a.z * b.y,
   a.w * b.y + a.y * b.w + a.z * b.x - a.x * b.z,
   a.w * b.z + a.z * b.w + a.x * b.y - a.y * b.x⟩

/-- Square of the norm, `q.squaredNorm()`. -/
def squaredNorm (q : Quaterniond) : ℚ := q.w * q.w + q.x * q.x + q.y * q.y + q.z * q.z

/-- Multiplicative inverse `q.inverse()`: the conjugate over the squared norm, and the
zero quaternion when the squared norm is not positive. -/
def inverse (q : Quaterniond) : Quaterniond :=
  let n2 := q.squaredNorm
  if 0 < n2 then ⟨q.w / n2, -q.x / n2, -q.y / n2, -q.z / n2⟩ else ⟨0, 0, 0, 0⟩

/-- Vector part `q.vec()`. -/
def vec (q : Quaterniond) : Vector3d := ⟨q.x, q.y, q.z⟩

end Quaterniond

/-- The values of `cos` and `sin` from `<cmath>` that the rotation is built from:
for an angle `a` in degrees, `cos_half a` stands for `cos (deg_to_rad a / 2)` and
`sin_half a` for `sin (deg_to_rad a / 2)`, the two numbers `Eigen` reads when it turns
`AngleAxisd (deg_to_rad a, axis)` into a quaternion. -/
structure Trig where
  cos_half : ℚ → ℚ
  sin_half : ℚ → ℚ

/-- The quaternion `q` of `transform_vector`:
`AngleAxisd(roll, UnitX) * AngleAxisd(pitch, UnitY) * AngleAxisd(yaw, UnitZ)`. -/
def rpy_quaternion (T : Trig) (rpy : Vector3d) : Quaterniond :=
  let qx : Quaterniond := ⟨T.cos_half rpy.x, T.sin_half rpy.x, 0, 0⟩
  let qy : Quaterniond := ⟨T.cos_half rpy.y, 0, T.sin_half rpy.y, 0⟩
  let qz : Quaterniond := ⟨T.cos_half rpy.z, 0, 0, T.sin_half rpy.z⟩
  (qx.mul qy).mul qz

/-- The vector part of `q * point * q.inverse()` for the pure quaternion `point = (0, v)`. -/
def rotate (q : Quaterniond) (v : Vector3d) : Vector3d :=
  ((q.mul ⟨0, v.x, v.y, v.z⟩).mul q.inverse).vec

/-- The function `transform_vector`: transform pose according to the translation and rpy
given. A mode other than the two known ones returns an uninitialised vector in C++,
which is `none` here. -/
def transform_vector (T : Trig) (p rpy translation : Vector3d) (forward_or_back : String) :
    Option Vector3d :=
  let q := rpy_quaternion T rpy
  if forward_or_back = "backward" then
    some ((rotate q ⟨p.x, p.y, p.z⟩).add translation)
  else if forward_or_back = "forward" then
    some (rotate q ((Vector3d.mk p.x p.y p.z).sub translation))
  else none

/-! ## rrt_search_node -/

/-- Address of a `Node`: the two members `start_node` and `end_node` of the planner, and
the `k`-th object allocated with `new Node`. -/
inductive NodePtr where
  | start_node : NodePtr
  | end_node : NodePtr
  | heap (k : ℕ) : NodePtr
deriving DecidableEq

/-- The struct `Node`; the parent is `none` for `NULL`. -/
structure Node where
  children : List NodePtr
  parent : Option NodePtr
  position : Vector3d
deriving DecidableEq

/-- The data members of `rrt_search_node` that the planner reads or writes. Only the
objects of `new Node` that were linked into the tree are kept in `heap`: a candidate that
is rejected is allocated and never referenced again. The counters are unbounded. -/
structure State where
  start_node : Node
  end_node : Node
  heap : List Node
  nodes : List NodePtr
  obs : List Vector3d
  no_fly_zone : List Vector4d
  step_size : ℚ
  reached : Bool
  initialized : ℤ
  obs_threshold : ℚ
  iter : ℤ
  _min_height : ℚ
  _max_height : ℚ
  timeout : ℚ
  map_size : Vector3d
  origin : Vector3d
  rotation : Vector3d
  translation : Vector3d
deriving DecidableEq

/-- The random numbers drawn during one call of `search_single_node`: the three values of
`dis_middle`, the value of `dis_normal` in `random_idx_selector` and the value of `dis_step`
in `node_stepping`. -/
structure Draw where
  random_vector : Vector3d
  idx_value : ℚ
  random_value : ℚ
deriving DecidableEq

namespace State

/-- The node at an address, `*ptr`; `none` when nothing was allocated there. -/
def deref (s : State) : NodePtr → Option Node
  | .start_node => some s.start_node
  | .end_node => some s.end_node
  | .heap k => s.heap[k]?

/-- The statement `ptr->children.push_back(child)`. -/
def push_child (s : State) (ptr child : NodePtr) : State :=
  match ptr with
  | .start_node =>
    { s with start_node := { s.start_node with children := s.start_node.children ++ [child] } }
  | .end_node =>
    { s with end_node := { s.end_node with children := s.end_node.children ++ [child] } }
  | .heap k =>
    { s with heap := s.heap.modify (fun nd => { nd with children := nd.children ++ [child] }) k }

/-- The state right after the constructor: the members with an initialiser or a default
constructor have their initial value, the others keep the indeterminate value that
`junk` supplies. -/
def constructed (junk : State) : State :=
  { junk with
    start_node := { junk.start_node with children := [] }
    end_node := { junk.end_node with children := [] }
    heap := []
    nodes := []
    no_fly_zone := []
    reached := false
    initialized := 0
    iter := 0
    timeout := 1 / 10 }

end State

/-- The function `random_idx_selector`, with the drawn number `u` as an argument. -/
def random_idx_selector (nodes_size : ℤ) (u : ℚ) : ℤ := ⌈u * nodes_size⌉ - 1

/-- The function `sq_separation`. -/
def sq_separation (p q : Vector3d) : ℚ :=
  (p.x - q.x) ^ 2 + (p.y - q.y) ^ 2 + (p.z - q.z) ^ 2

/-- The function `node_stepping`, with the drawn number `random_value` as an argument. -/
def node_stepping (s : State) (node random_vector : Vector3d) (random_value : ℚ) : Vector3d :=
  let distance_vector := Vector3d.smul (random_value * s.step_size) random_vector
  let step := distance_vector.add node
  ⟨min (max step.x (-s.map_size.x / 2)) (s.map_size.x / 2),
   min (max step.y (-s.map_size.y / 2)) (s.map_size.y / 2),
   min (max step.z s._min_height) s._max_height⟩

/-- The loop over `no_fly_zone` in `search_single_node`: true when the point is rejected. -/
def in_no_fly_zone (no_fly_zone : List Vector4d) (original_position : Vector3d) : Bool :=
  no_fly_zone.any (fun zone =>
    decide (original_position.x ≤ zone.c1 ∧ original_position.x ≥ zone.c0 ∧
      original_position.y ≤ zone.c3 ∧ original_position.y ≥ zone.c2))

/-- The three statements of `search_single_node` that link the accepted candidate into
the tree: `step_node->parent = nodes[index]`, `nodes.push_back(step_node)` and
`nodes[index]->children.push_back(step_node)`, where `sel` is `nodes[index]`. The new
object gets the next free heap address. -/
def State.insert_step_node (s : State) (sel : NodePtr) (position : Vector3d) : State :=
  let step_ptr := NodePtr.heap s.heap.length
  let step_node : Node := ⟨[], some sel, position⟩
  let s1 : State := { s with heap := s.heap ++ [step_node], nodes := s.nodes ++ [step_ptr] }
  s1.push_child sel step_ptr

/-- The body of the goal test of `search_single_node`: `reached = true`,
`end_node.parent = step_node`, `nodes.push_back(&end_node)` and
`(nodes[nodes.size()-1]->children).push_back(&end_node)`. -/
def State.attach_end_node (s : State) (step_ptr : NodePtr) : Option State :=
  let s3 : State :=
    { s with
      reached := true
      end_node := { s.end_node with parent := some step_ptr }
      nodes := s.nodes ++ [NodePtr.end_node] }
  match s3.nodes[s3.nodes.length - 1]? with
  | none => none
  | some last => some (s3.push_child last NodePtr.end_node)

/-- The function `search_single_node`. The result is `none` when the call has undefined
behaviour: `nodes[index]` out of range or a dangling pointer. -/
def search_single_node (T : Trig) (s : State) (d : Draw) : Option State :=
  let index := random_idx_selector s.nodes.length d.idx_value
  if index < 0 ∨ (s.nodes.length : ℤ) ≤ index then none
  else
    match s.nodes[index.toNat]? with
    | none => none
    | some sel =>
      match s.deref sel with
      | none => none
      | some sel_node =>
        let position := node_stepping s sel_node.position d.random_vector d.random_value
        let transformed_position : Vector3d := ⟨position.x, position.y, position.z⟩
        match transform_vector T transformed_position s.rotation s.translation "backward" with
        | none => none
        | some original_position =>
          if in_no_fly_zone s.no_fly_zone original_position then some s
          else
            let flag := check_line_validity_with_pcl sel_node.position position
              s.obs_threshold s.obs
            if !flag then some s
            else
              let step_ptr := NodePtr.heap s.heap.length
              let s2 := s.insert_step_node sel position
              if check_line_validity_with_pcl position s2.end_node.position
                    s2.obs_threshold s2.obs
                  && decide (sq_separation position s2.end_node.position < s2.step_size) then
                s2.attach_end_node step_ptr
              else some { s2 with iter := s2.iter + 1 }

/-- The loop of `path_extraction`, on copies `up` and `down` of two nodes; each round
costs one unit of `fuel`. The result is `none` when the fuel runs out. -/
def path_extraction_loop (s : State) : ℕ → Node → Node → List Vector3d →
    Option (List Vector3d)
  | 0, _, _, _ => none
  | fuel + 1, up, down, path =>
    let path := path ++ [down.position]
    match up.parent with
    | none => some path
    | some up_parent =>
      match s.deref up_parent, down.parent.bind s.deref with
      | some up_next, some down_next => path_extraction_loop s fuel up_next down_next path
      | _, _ => none

/-- The function `path_extraction`; `none` when `end_node.parent` is `NULL` or dangling,
or when the loop does not finish within `fuel` rounds. -/
def path_extraction (s : State) (fuel : ℕ) : Option (List Vector3d) :=
  match s.end_node.parent.bind s.deref with
  | none => none
  | some up => path_extraction_loop s fuel up s.end_node []

/-- The function `initialize_start_end`. -/
def initialize_start_end (s : State) (_start _end : Vector3d) : State :=
  { s with
    initialized := s.initialized + 1
    start_node := { s.start_node with position := _start, parent := none }
    nodes := s.nodes ++ [NodePtr.start_node]
    end_node := { s.end_node with position := _end } }

/-- The function `initialize_boundaries`. -/
def initialize_boundaries (s : State) (min_height max_height : ℚ)
    (_no_fly_zone : List Vector4d) : State :=
  { s with
    initialized := s.initialized + 1
    no_fly_zone := _no_fly_zone
    _min_height := min_height
    _max_height := max_height }

/-- The function `initialize_map_characteristics`. -/
def initialize_map_characteristics (s : State) (_pc : List Vector3d)
    (_map_size _origin : Vector3d) : State :=
  { s with
    initialized := s.initialized + 1
    obs := _pc
    map_size := _map_size
    origin := _origin }

/-- The function `initialize_node_characteristics`. -/
def initialize_node_characteristics (s : State) (_timeout _step_size _obs_threshold : ℚ)
    (_rotation _translation : Vector3d) : State :=
  { s with
    initialized := s.initialized + 1
    timeout := _timeout
    rotation := _rotation
    translation := _translation
    obs_threshold := _obs_threshold
    step_size := _step_size }

/-- The `while (!reached)` loop of `run_rrt_module`. Each element of the trace holds the
random numbers of one call of `search_single_node` and the reading of the system clock
taken right after it. The result is the final state with the flag `error`; it is `none`
when a growth step has undefined behaviour or the trace ends before the loop does. -/
def run_loop (T : Trig) (fail_timer_start : ℚ) : List (Draw × ℚ) → State →
    Option (State × Bool)
  | trace, s =>
    if s.reached then some (s, false)
    else
      match trace with
      | [] => none
      | (d, now) :: rest =>
        match search_single_node T s d with
        | none => none
        | some s1 =>
          if now - fail_timer_start > s1.timeout then some (s1, true)
          else run_loop T fail_timer_start rest s1

/-- The function `run_rrt_module`: the final state and the returned path. The walk of
`path_extraction` is given one round per heap node and one more. -/
def run_rrt_module (T : Trig) (s : State) (fail_timer_start : ℚ)
    (trace : List (Draw × ℚ)) : Option (State × List Vector3d) :=
  if s.initialized ≠ 4 then some (s, [])
  else
    match run_loop T fail_timer_start trace s with
    | none => none
    | some (s1, error) =>
      if error then some (s1, [])
      else
        match path_extraction s1 (s1.heap.length + 1) with
        | none => none
        | some path => some (s1, path)

/-! ## Definitions used by the statements and proofs -/

/-- The `i`-th sample of the subdivision with count `n`: the start point moved `i` times
by the step `(q - p) / (n - 1)`. -/
def sample_at (p q : Vector3d) (n : ℤ) (i : ℕ) : Vector3d :=
  ⟨p.x + (i : ℚ) * ((q.x - p.x) / ((n : ℚ) - 1)),
   p.y + (i : ℚ) * ((q.y - p.y) / ((n : ℚ) - 1)),
   p.z + (i : ℚ) * ((q.z - p.z) / ((n : ℚ) - 1))⟩

/-- The point `p + lam (q - p)` of the line through `p` and `q`. -/
def point_on_line (p q : Vector3d) (lam : ℚ) : Vector3d :=
  p.add (Vector3d.smul lam (q.sub p))

/-- The parent pointer and the position stored at an address. -/
def State.link (s : State) (ptr : NodePtr) : Option (Option NodePtr × Vector3d) :=
  (s.deref ptr).map (fun nd => (nd.parent, nd.position))

/-- The members that only the configuration calls write agree in both states. -/
def SameConfig (s s' : State) : Prop :=
  s'.obs = s.obs ∧ s'.no_fly_zone = s.no_fly_zone ∧ s'.step_size = s.step_size ∧
    s'.initialized = s.initialized ∧ s'.obs_threshold = s.obs_threshold ∧
    s'._min_height = s._min_height ∧ s'._max_height = s._max_height ∧
    s'.timeout = s.timeout ∧ s'.map_size = s.map_size ∧ s'.origin = s.origin ∧
    s'.rotation = s.rotation ∧ s'.translation = s.translation

/-- What a call of `search_single_node` that inserts a node does to the state: `sel` is
the selected address, `position` the position of the new node. -/
structure Inserted (s s' : State) (sel : NodePtr) (position : Vector3d) : Prop where
  heap_length : s'.heap.length = s.heap.length + 1
  link_new : s'.link (NodePtr.heap s.heap.length) = some (some sel, position)
  link_old : ∀ k, k ≠ s.heap.length → s'.link (NodePtr.heap k) = s.link (NodePtr.heap k)
  link_start : s'.link NodePtr.start_node = s.link NodePtr.start_node
  end_position : s'.end_node.position = s.end_node.position
  config : SameConfig s s'
  goal : (s'.reached = s.reached ∧ s'.end_node.parent = s.end_node.parent ∧
        s'.nodes = s.nodes ++ [NodePtr.heap s.heap.length] ∧ s'.iter = s.iter + 1 ∧
        ¬ (check_line_validity_with_pcl position s.end_node.position s.obs_threshold s.obs
            = true ∧ sq_separation position s.end_node.position < s.step_size)) ∨
      (s'.reached = true ∧ s'.end_node.parent = some (NodePtr.heap s.heap.length) ∧
        s'.nodes = s.nodes ++ [NodePtr.heap s.heap.length, NodePtr.end_node] ∧
        s'.iter = s.iter ∧
        check_line_validity_with_pcl position s.end_node.position s.obs_threshold s.obs
          = true ∧ sq_separation position s.end_node.position < s.step_size)

/-- The shape of the tree that the growth steps maintain. Every address in `nodes` is
valid; the start node is the root; every heap node hangs below the start node or an
older heap node, and the segment from its parent to it passed the collision check; once
the goal is reached, it hangs below a heap node and the segment from that node to the
goal passed the check. -/
structure TreeInv (s : State) : Prop where
  nodes_ok : ∀ ptr ∈ s.nodes, ptr = NodePtr.start_node ∨
    (∃ k, ptr = NodePtr.heap k ∧ k < s.heap.length) ∨
    (ptr = NodePtr.end_node ∧ s.reached = true)
  root : s.nodes ≠ [] → s.start_node.parent = none
  heap_nodes : s.heap ≠ [] → s.nodes ≠ []
  heap_ok : ∀ k, k < s.heap.length → ∃ par pos ppar ppos,
    s.link (NodePtr.heap k) = some (some par, pos) ∧
    (par = NodePtr.start_node ∨ ∃ j, par = NodePtr.heap j ∧ j < k) ∧
    s.link par = some (ppar, ppos) ∧
    check_line_validity_with_pcl ppos pos s.obs_threshold s.obs = true
  goal_ok : s.reached = true → ∃ k pos ppar,
    s.end_node.parent = some (NodePtr.heap k) ∧ k < s.heap.length ∧
    s.link (NodePtr.heap k) = some (ppar, pos) ∧
    check_line_validity_with_pcl pos s.end_node.position s.obs_threshold s.obs = true

/-- The nodes met when following the parent pointers from the node `n` up to a node
without a parent: `ParentChain s n [m₁, …, mₖ]` says that `m₁` is the parent of `n`, each
`mᵢ₊₁` the parent of `mᵢ`, and that the last one (or `n` itself for the empty list) has
no parent. -/
def ParentChain (s : State) : Node → List Node → Prop
  | n, [] => n.parent = none
  | n, m :: rest => (∃ p, n.parent = some p ∧ s.deref p = some m) ∧ ParentChain s m rest

/-- The relation that the collision check accepted the segment from the second node to
the first one. -/
def EdgeChecked (s : State) (child parent : Node) : Prop :=
  check_line_validity_with_pcl parent.position child.position s.obs_threshold s.obs = true

/-- The states of a planner object: the state after the constructor, closed under the
four configuration calls and under the growth steps of `run_rrt_module`, which calls
`search_single_node` only when `initialized == 4` and `reached` is false. -/
inductive Reachable (T : Trig) : State → Prop
  | constructed (junk : State) : Reachable T (State.constructed junk)
  | start_end (s : State) (_start _end : Vector3d) :
      Reachable T s → Reachable T (initialize_start_end s _start _end)
  | boundaries (s : State) (min_height max_height : ℚ) (zones : List Vector4d) :
      Reachable T s → Reachable T (initialize_boundaries s min_height max_height zones)
  | map_characteristics (s : State) (_pc : List Vector3d) (_map_size _origin : Vector3d) :
      Reachable T s → Reachable T (initialize_map_characteristics s _pc _map_size _origin)
  | node_characteristics (s : State) (_timeout _step_size _obs_threshold : ℚ)
      (_rotation _translation : Vector3d) :
      Reachable T s →
      Reachable T (initialize_node_characteristics s _timeout _step_size _obs_threshold
        _rotation _translation)
  | growth (s s' : State) (d : Draw) :
      Reachable T s → s.initialized = 4 → s.reached = false →
      search_single_node T s d = some s' → Reachable T s'

/-- A state in which no growth step has happened yet. -/
def Untouched (s : State) : Prop :=
  s.heap = [] ∧ s.reached = false ∧ ∀ ptr ∈ s.nodes, ptr = NodePtr.start_node

/-- The value of the variable `local_obs` of `check_line_validity_with_pcl`: the obstacle
points kept by the crop to the box around the segment, which has its centre at
`(p + q) / 2` and the size `|p - q| + 2 * obs_threshold` along each axis. -/
def segment_local_obs (p q : Vector3d) (obs_threshold : ℚ) (obs : List Vector3d) :
    List Vector3d :=
  pcl_ptr_box_crop obs ((p.add q).div 2)
    ((Vector3d.mk |(p.sub q).x| |(p.sub q).y| |(p.sub q).z|).add
      ⟨2 * obs_threshold, 2 * obs_threshold, 2 * obs_threshold⟩)

/-- The vector has every coordinate at most `B` in absolute value. -/
def coordinates_within (B : ℚ) (v : Vector3d) : Prop := |v.x| ≤ B ∧ |v.y| ≤ B ∧ |v.z| ≤ B

/-- Three times a bound on what the narrowing to `float` moves a value of magnitude at
most `B + t`: its relative error is at most `2 ^ (-24)`, and in the subnormal range its
absolute error is at most `2 ^ (-150)`. -/
def float_slack (B t : ℚ) : ℚ := 3 * ((B + t) / 2 ^ 24 + 1 / 2 ^ 150)

/-- The square of the largest distance from a point of the segment to the nearest sample
of the subdivision with count `n`: half the spacing `|p - q| / (n - 1)` of the samples,
or the whole length `|p - q|` when `p` is the only sample. -/
def half_spacing_sq (p q : Vector3d) (n : ℤ) : ℚ :=
  if 2 ≤ n then (p.sub q).squaredNorm / (4 * ((n : ℚ) - 1) ^ 2) else (p.sub q).squaredNorm

/-- The values of `cos` and `sin` at the angle zero, `1` and `0`. The scenarios below use
the rotation `(0, 0, 0)` only, so no other entry of the table is read. -/
def Trig.zero_angle : Trig := ⟨fun _ => 1, fun _ => 0⟩

/-- The indeterminate members of a fresh planner object, all set to zero. -/
def zero_state : State :=
  { start_node := ⟨[], none, ⟨0, 0, 0⟩⟩
    end_node := ⟨[], none, ⟨0, 0, 0⟩⟩
    heap := []
    nodes := []
    obs := []
    no_fly_zone := []
    step_size := 0
    reached := false
    initialized := 0
    obs_threshold := 0
    iter := 0
    _min_height := 0
    _max_height := 0
    timeout := 0
    map_size := ⟨0, 0, 0⟩
    origin := ⟨0, 0, 0⟩
    rotation := ⟨0, 0, 0⟩
    translation := ⟨0, 0, 0⟩ }

/-- A fully configured planner: start `(0,0,0)`, goal `(1,0,0)`, heights `[-10, 10]`,
no no fly zone, map `30 × 30 × 20`, timeout `5`, step size `1`, clearance `1`, identity
frame, and the obstacle set `obs`. -/
def scenario (obs : List Vector3d) : State :=
  initialize_node_characteristics
    (initialize_map_characteristics
      (initialize_boundaries
        (initialize_start_end (State.constructed zero_state) ⟨0, 0, 0⟩ ⟨1, 0, 0⟩)
        (-10) 10 [])
      obs ⟨30, 30, 20⟩ ⟨0, 0, 0⟩)
    5 1 1 ⟨0, 0, 0⟩ ⟨0, 0, 0⟩

/-- The draws of one growth step: direction `(1, 0, 0)`, index draw `1/2`, step factor
`3/5`. From the start node `(0,0,0)` with step size `1` the candidate is `(3/5, 0, 0)`. -/
def draw_x : Draw := ⟨⟨1, 0, 0⟩, 1 / 2, 3 / 5⟩

/-- A planner on which `initialize_boundaries` was never called and
`initialize_node_characteristics` was called twice. -/
def scenario_without_boundaries : State :=
  initialize_node_characteristics
    (initialize_node_characteristics
      (initialize_map_characteristics
        (initialize_start_end (State.constructed zero_state) ⟨0, 0, 0⟩ ⟨1, 0, 0⟩)
        [] ⟨30, 30, 20⟩ ⟨0, 0, 0⟩)
      5 1 1 ⟨0, 0, 0⟩ ⟨0, 0, 0⟩)
    5 1 1 ⟨0, 0, 0⟩ ⟨0, 0, 0⟩

/-- The final state of the run of `scenario` with the single growth step `draw_x`: the
step node `(3/5, 0, 0)` hangs below the start node and the goal below the step node. The
goal node is its own child, and the step node has no child. -/
def scenario_final (obs : List Vector3d) : State :=
  { scenario obs with
    start_node := ⟨[NodePtr.heap 0], none, ⟨0, 0, 0⟩⟩
    end_node := ⟨[NodePtr.end_node], some (NodePtr.heap 0), ⟨1, 0, 0⟩⟩
    heap := [⟨[], some NodePtr.start_node, ⟨3 / 5, 0, 0⟩⟩]
    nodes := [NodePtr.start_node, NodePtr.heap 0, NodePtr.end_node]
    reached := true }

/-- The growth steps of a part of the trace during which the loop of `run_rrt_module`
goes on: before each step the goal is not reached, and the reading taken after each step
does not exceed the timeout. The result is the state after the last of them. -/
def grow_steps (T : Trig) (fail_timer_start : ℚ) : List (Draw × ℚ) → State → Option State
  | [], s => some s
  | (d, now) :: rest, s =>
    if s.reached then none
    else
      match search_single_node T s d with
      | none => none
      | some s1 =>
        if now - fail_timer_start > s1.timeout then none
        else grow_steps T fail_timer_start rest s1

/-- A table of `cos` and `sin` for the angles `0` and `90`: exact at `0`, and at `90` the
values of `cos 45°` and `sin 45°` both multiplied by `√2`, which is `1` and `1`. The
rotation of `transform_vector` divides by the squared norm of the quaternion, so a common
factor of the two values does not change it. -/
def Trig.quarter_turn : Trig := ⟨fun _ => 1, fun a => if a = 90 then 1 else 0⟩

/-- A fully configured planner with start `(0,0,0)`, goal `_end`, heights `[-10, 10]`, the
no fly zones `zones`, the obstacle set `obs`, map `30 × 30 × 20`, timeout `5`, step size
`step_size`, clearance `1` and the identity frame. -/
def planner (_end : Vector3d) (zones : List Vector4d) (obs : List Vector3d)
    (step_size : ℚ) : State :=
  initialize_node_characteristics
    (initialize_map_characteristics
      (initialize_boundaries
        (initialize_start_end (State.constructed zero_state) ⟨0, 0, 0⟩ _end)
        (-10) 10 zones)
      obs ⟨30, 30, 20⟩ ⟨0, 0, 0⟩)
    5 step_size 1 ⟨0, 0, 0⟩ ⟨0, 0, 0⟩

/-- The vector `step` of `node_stepping` before the three clamping statements:
`random_value * step_size * random_vector + node`. -/
def stepped_candidate (s : State) (node random_vector : Vector3d) (random_value : ℚ) :
    Vector3d :=
  (Vector3d.smul (random_value * s.step_size) random_vector).add node

/-- One of the four configuration calls, with its arguments. -/
inductive ConfigCall where
  | start_end (_start _end : Vector3d) : ConfigCall
  | boundaries (min_height max_height : ℚ) (_no_fly_zone : List Vector4d) : ConfigCall
  | map_characteristics (_pc : List Vector3d) (_map_size _origin : Vector3d) : ConfigCall
  | node_characteristics (_timeout _step_size _obs_threshold : ℚ)
      (_rotation _translation : Vector3d) : ConfigCall

/-- The effect of one configuration call on the planner. -/
def ConfigCall.apply (s : State) : ConfigCall → State
  | .start_end a b => initialize_start_end s a b
  | .boundaries lo hi zones => initialize_boundaries s lo hi zones
  | .map_characteristics pc m o => initialize_map_characteristics s pc m o
  | .node_characteristics tmo st th r t => initialize_node_characteristics s tmo st th r t

/-- The planner after a sequence of configuration calls, made in the order of the list. -/
def configure (s : State) (calls : List ConfigCall) : State :=
  calls.foldl ConfigCall.apply s

/-- The point lies outside every no fly rectangle (bounds included) once it is mapped to
the world frame with `transform_vector` in the mode "backward". -/
def OutsideNoFly (T : Trig) (s : State) (p : Vector3d) : Prop :=
  ∃ w, transform_vector T p s.rotation s.translation "backward" = some w ∧
    ∀ zone ∈ s.no_fly_zone,
      ¬ (zone.c0 ≤ w.x ∧ w.x ≤ zone.c1 ∧ zone.c2 ≤ w.y ∧ w.y ≤ zone.c3)

/-- The order of the node collection: every heap node stands in `nodes` after its parent,
and so does the goal node once it is attached. -/
def NodesOrdered (s : State) : Prop :=
  (∀ (k : ℕ) (nd : Node), s.heap[k]? = some nd →
      ∃ (par : NodePtr) (i j : ℕ), nd.parent = some par ∧ i < j ∧
        s.nodes[i]? = some par ∧ s.nodes[j]? = some (NodePtr.heap k)) ∧
    (s.reached = true →
      ∃ (par : NodePtr) (i j : ℕ), s.end_node.parent = some par ∧ i < j ∧
        s.nodes[i]? = some par ∧ s.nodes[j]? = some NodePtr.end_node)

/-! ## The subdivision count -/

lemma ceil_sqrt_from_spec (k : ℕ) : ∀ (fuel n : ℕ), k ≤ fuel + n →
    (∀ m, m < n → m * m < k) →
    k ≤ ceil_sqrt_from k fuel n * ceil_sqrt_from k fuel n ∧
      ∀ m, m < ceil_sqrt_from k fuel n → m * m < k := by
  intro fuel
  induction fuel with
  | zero =>
    intro n hk hlt
    simp only [ceil_sqrt_from]
    refine ⟨?_, hlt⟩
    rcases Nat.eq_zero_or_pos n with h0 | hpos
    · subst h0; omega
    · calc k ≤ n := by omega
        _ ≤ n * n := Nat.le_mul_self n
  | succ fuel ih =>
    intro n hk hlt
    simp only [ceil_sqrt_from]
    split_ifs with h
    · exact ⟨h, hlt⟩
    · apply ih (n + 1) (by omega)
      intro m hm
      rcases Nat.lt_succ_iff_lt_or_eq.mp hm with h1 | h1
      · exact hlt m h1
      · subst h1; omega

lemma le_ceil_sqrt_sq (k : ℕ) : k ≤ ceil_sqrt k * ceil_sqrt k :=
  (ceil_sqrt_from_spec k k 0 (by omega) (by intro m hm; omega)).1

lemma lt_of_lt_ceil_sqrt (k m : ℕ) (h : m < ceil_sqrt k) : m * m < k :=
  (ceil_sqrt_from_spec k k 0 (by omega) (by intro m hm; omega)).2 m h

/-- For a positive threshold the count is a natural number. -/
lemma ceil_norm_div_pos_threshold (v : Vector3d) (t : ℚ) (ht : 0 < t) :
    ceil_norm_div v t = ((ceil_sqrt ⌈v.squaredNorm / (t * t)⌉₊ : ℕ) : ℤ) := by
  simp [ceil_norm_div, ht]

lemma squaredNorm_nonneg (v : Vector3d) : 0 ≤ v.squaredNorm := by
  unfold Vector3d.squaredNorm
  nlinarith [mul_self_nonneg v.x, mul_self_nonneg v.y, mul_self_nonneg v.z]

/-- The count `n` satisfies `|v|² ≤ (n t)²`, that is `|v| / t ≤ n`. -/
lemma squaredNorm_le_count_sq (v : Vector3d) (t : ℚ) (ht : 0 < t) :
    v.squaredNorm ≤
      ((ceil_sqrt ⌈v.squaredNorm / (t * t)⌉₊ : ℕ) : ℚ) ^ 2 * (t * t) := by
  have htt : 0 < t * t := mul_pos ht ht
  have h1 : v.squaredNorm / (t * t) ≤ (⌈v.squaredNorm / (t * t)⌉₊ : ℚ) := Nat.le_ceil _
  have h2 : (⌈v.squaredNorm / (t * t)⌉₊ : ℚ) ≤
      ((ceil_sqrt ⌈v.squaredNorm / (t * t)⌉₊ : ℕ) : ℚ) ^ 2 := by
    have := le_ceil_sqrt_sq ⌈v.squaredNorm / (t * t)⌉₊
    have h3 : ((⌈v.squaredNorm / (t * t)⌉₊ : ℕ) : ℚ) ≤
        ((ceil_sqrt ⌈v.squaredNorm / (t * t)⌉₊ * ceil_sqrt ⌈v.squaredNorm / (t * t)⌉₊ : ℕ) : ℚ) := by
      exact_mod_cast this
    rw [pow_two]
    exact_mod_cast h3
  have h4 := le_trans h1 h2
  rwa [div_le_iff₀ htt] at h4

lemma linspace_loop_eq (delta : ℚ) : ∀ (k : ℕ) (last : ℚ),
    linspace_loop delta k last =
      (List.range k).map (fun (i : ℕ) => last + ((i : ℚ) + 1) * delta) := by
  intro k
  induction k with
  | zero => intro last; simp [linspace_loop]
  | succ k ih =>
    intro last
    rw [linspace_loop, ih, List.range_succ_eq_map, List.map_cons, List.map_map]
    congr 1
    · simp
    · apply List.map_congr_left
      intro i _
      simp only [Function.comp, Nat.cast_succ]
      ring

lemma linspace_eq (min max : ℚ) (n : ℤ) :
    linspace min max n =
      (List.range ((n - 1).toNat + 1)).map
        (fun (i : ℕ) => min + (i : ℚ) * ((max - min) / ((n : ℚ) - 1))) := by
  unfold linspace
  simp only
  rw [linspace_loop_eq, List.range_succ_eq_map, List.map_cons, List.map_map]
  congr 1
  · simp
  · apply List.map_congr_left
    intro i _
    simp only [Function.comp, Nat.cast_succ]

lemma zipWith3_map_same {α β γ δ ε : Type} (f : β → γ → δ → ε) (g1 : α → β) (g2 : α → γ)
    (g3 : α → δ) : ∀ l : List α,
    List.zipWith3 f (l.map g1) (l.map g2) (l.map g3) = l.map (fun i => f (g1 i) (g2 i) (g3 i))
  | [] => rfl
  | a :: l => by
    simp only [List.map_cons, List.zipWith3]
    rw [zipWith3_map_same f g1 g2 g3 l]

lemma line_vector_eq (p q : Vector3d) (n : ℤ) :
    line_vector p q n = (List.range ((n - 1).toNat + 1)).map (sample_at p q n) := by
  unfold line_vector
  rw [linspace_eq, linspace_eq, linspace_eq, zipWith3_map_same]
  rfl

lemma mem_line_vector (p q s : Vector3d) (n : ℤ) :
    s ∈ line_vector p q n ↔ ∃ i : ℕ, i < (n - 1).toNat + 1 ∧ s = sample_at p q n i := by
  rw [line_vector_eq]
  simp only [List.mem_map, List.mem_range]
  constructor
  · rintro ⟨i, hi, rfl⟩; exact ⟨i, hi, rfl⟩
  · rintro ⟨i, hi, rfl⟩; exact ⟨i, hi, rfl⟩

lemma start_mem_line_vector (p q : Vector3d) (n : ℤ) : p ∈ line_vector p q n := by
  rw [mem_line_vector]
  exact ⟨0, by omega, by simp [sample_at]⟩

/-- With a count below two the start point is the only sample. -/
lemma line_vector_of_le_one (p q : Vector3d) (n : ℤ) (hn : n ≤ 1) :
    line_vector p q n = [p] := by
  rw [line_vector_eq]
  have : (n - 1).toNat = 0 := by omega
  rw [this]
  simp [List.range_succ, sample_at]

/-- Each coordinate of a sample lies between the coordinates of the two end points. -/
lemma between_of_sample (a b : ℚ) (n : ℤ) (i : ℕ) (hi : i < (n - 1).toNat + 1) :
    min a b ≤ a + (i : ℚ) * ((b - a) / ((n : ℚ) - 1)) ∧
      a + (i : ℚ) * ((b - a) / ((n : ℚ) - 1)) ≤ max a b := by
  rcases Nat.eq_zero_or_pos i with h0 | hpos
  · subst h0
    simp
  · have hn : 2 ≤ n := by omega
    have hi' : (i : ℤ) ≤ n - 1 := by omega
    have hden : (0 : ℚ) < (n : ℚ) - 1 := by
      have : (2 : ℚ) ≤ (n : ℚ) := by exact_mod_cast hn
      linarith
    have hiq : (i : ℚ) ≤ (n : ℚ) - 1 := by
      have : ((i : ℤ) : ℚ) ≤ ((n - 1 : ℤ) : ℚ) := by exact_mod_cast hi'
      push_cast at this
      simpa using this
    set lam : ℚ := (i : ℚ) / ((n : ℚ) - 1) with hlam
    have h0 : 0 ≤ lam := div_nonneg (by positivity) hden.le
    have h1 : lam ≤ 1 := by
      rw [hlam, div_le_one hden]; exact hiq
    have heq : a + (i : ℚ) * ((b - a) / ((n : ℚ) - 1)) = a + lam * (b - a) := by
      rw [hlam]; field_simp
    rw [heq]
    rcases le_total a b with hab | hab
    · rw [min_eq_left hab, max_eq_right hab]
      constructor <;> nlinarith
    · rw [min_eq_right hab, max_eq_left hab]
      constructor <;> nlinarith

/-! ## The conversion to `float` -/

lemma floor_log2_from_spec : ∀ (fuel n : ℕ), n ≤ fuel → 1 ≤ n →
    2 ^ floor_log2_from fuel n ≤ n ∧ n < 2 ^ (floor_log2_from fuel n + 1) := by
  intro fuel
  induction fuel with
  | zero => intro n h0 h1; omega
  | succ fuel ih =>
    intro n hn h1
    unfold floor_log2_from
    by_cases h2 : 2 ≤ n
    · simp only [h2, if_true]
      obtain ⟨ha, hb⟩ := ih (n / 2) (by omega) (by omega)
      constructor
      · rw [pow_succ]; omega
      · rw [pow_succ]; omega
    · simp only [h2, if_false]
      omega

lemma floor_log2_spec (n : ℕ) (h1 : 1 ≤ n) :
    2 ^ floor_log2 n ≤ n ∧ n < 2 ^ (floor_log2 n + 1) :=
  floor_log2_from_spec n n le_rfl h1

lemma pow2_eq_zpow (k : ℤ) : pow2 k = (2 : ℚ) ^ k := by
  unfold pow2
  by_cases hk : 0 ≤ k
  · simp only [hk, if_true]
    obtain ⟨n, rfl⟩ := Int.eq_ofNat_of_zero_le hk
    simp
  · simp only [hk, if_false]
    have hk' : 0 ≤ -k := by omega
    obtain ⟨n, hn⟩ := Int.eq_ofNat_of_zero_le hk'
    have : k = -(n : ℤ) := by omega
    subst this
    simp

/-- The binary exponent brackets a positive rational between two neighbouring powers of
two. -/
lemma binade_spec (y : ℚ) (hy : 0 < y) :
    (2 : ℚ) ^ binade y ≤ y ∧ y < (2 : ℚ) ^ (binade y + 1) := by
  unfold binade
  by_cases h1 : 1 ≤ y
  · simp only [h1, if_true]
    have hn : 1 ≤ ⌊y⌋₊ := Nat.le_floor (by simpa using h1)
    obtain ⟨ha, hb⟩ := floor_log2_spec ⌊y⌋₊ hn
    constructor
    · have : ((2 ^ floor_log2 ⌊y⌋₊ : ℕ) : ℚ) ≤ (⌊y⌋₊ : ℚ) := by exact_mod_cast ha
      calc (2 : ℚ) ^ ((floor_log2 ⌊y⌋₊ : ℕ) : ℤ) = ((2 ^ floor_log2 ⌊y⌋₊ : ℕ) : ℚ) := by
            simp
        _ ≤ (⌊y⌋₊ : ℚ) := this
        _ ≤ y := Nat.floor_le hy.le
    · have hb' : ⌊y⌋₊ + 1 ≤ 2 ^ (floor_log2 ⌊y⌋₊ + 1) := hb
      have : ((⌊y⌋₊ + 1 : ℕ) : ℚ) ≤ ((2 ^ (floor_log2 ⌊y⌋₊ + 1) : ℕ) : ℚ) := by
        exact_mod_cast hb'
      calc y < (⌊y⌋₊ : ℚ) + 1 := Nat.lt_floor_add_one y
        _ = ((⌊y⌋₊ + 1 : ℕ) : ℚ) := by push_cast; ring
        _ ≤ ((2 ^ (floor_log2 ⌊y⌋₊ + 1) : ℕ) : ℚ) := this
        _ = (2 : ℚ) ^ (((floor_log2 ⌊y⌋₊ : ℕ) : ℤ) + 1) := by
            rw [show (((floor_log2 ⌊y⌋₊ : ℕ) : ℤ) + 1) = ((floor_log2 ⌊y⌋₊ + 1 : ℕ) : ℤ) by
              push_cast; ring, zpow_natCast]
            push_cast
            ring
  · simp only [h1, if_false]
    have hy1 : y < 1 := not_le.mp h1
    have hinv : 1 < 1 / y := by
      rw [lt_div_iff₀ hy]; linarith
    have hm2 : 2 ≤ ⌈1 / y⌉₊ := by
      have : (1 : ℕ) < ⌈1 / y⌉₊ := Nat.lt_ceil.mpr (by simpa using hinv)
      omega
    have hm : ¬ ⌈1 / y⌉₊ ≤ 1 := by omega
    simp only [hm, if_false]
    obtain ⟨ha, hb⟩ := floor_log2_spec (⌈1 / y⌉₊ - 1) (by omega)
    set k := floor_log2 (⌈1 / y⌉₊ - 1) with hk
    have hceil : 1 / y ≤ (⌈1 / y⌉₊ : ℚ) := Nat.le_ceil _
    have hceil' : ((⌈1 / y⌉₊ - 1 : ℕ) : ℚ) < 1 / y := by
      have := Nat.ceil_lt_add_one (show (0 : ℚ) ≤ 1 / y by positivity)
      have hc : ((⌈1 / y⌉₊ - 1 : ℕ) : ℚ) = (⌈1 / y⌉₊ : ℚ) - 1 := by
        rw [Nat.cast_sub (by omega)]; simp
      rw [hc]; linarith
    constructor
    · -- 2 ^ (-(k+1)) ≤ y
      have hle : (⌈1 / y⌉₊ : ℚ) ≤ ((2 ^ (k + 1) : ℕ) : ℚ) := by
        have : ⌈1 / y⌉₊ ≤ 2 ^ (k + 1) := by omega
        exact_mod_cast this
      have h3 : 1 / y ≤ (2 : ℚ) ^ (k + 1) := by
        have := le_trans hceil hle
        simpa using this
      have h4 : 1 ≤ (2 : ℚ) ^ (k + 1) * y := by
        have := (div_le_iff₀ hy).mp h3
        linarith
      rw [show (-(((k + 1 : ℕ)) : ℤ)) = -((k + 1 : ℕ) : ℤ) by rfl, zpow_neg, zpow_natCast]
      rw [inv_le_comm₀ (by positivity) hy]
      rw [← one_div]
      exact h3
    · have hlt : ((2 ^ k : ℕ) : ℚ) < 1 / y := by
        have : ((2 ^ k : ℕ) : ℚ) ≤ ((⌈1 / y⌉₊ - 1 : ℕ) : ℚ) := by exact_mod_cast ha
        exact lt_of_le_of_lt this hceil'
      have h5 : (2 : ℚ) ^ k < 1 / y := by simpa using hlt
      have h6 : y < 1 / (2 : ℚ) ^ k := by
        rw [lt_div_iff₀ (by positivity)]
        have := (lt_div_iff₀ hy).mp h5
        linarith
      rw [show (-(((k + 1 : ℕ)) : ℤ)) + 1 = -((k : ℕ) : ℤ) by push_cast; ring, zpow_neg,
        zpow_natCast, ← one_div]
      exact h6

lemma round_half_even_error (y : ℚ) : |(round_half_even y : ℚ) - y| ≤ 1 / 2 := by
  unfold round_half_even
  have h0 : (⌊y⌋ : ℚ) ≤ y := Int.floor_le y
  have h1 : y < (⌊y⌋ : ℚ) + 1 := Int.lt_floor_add_one y
  simp only
  rw [abs_le]
  split_ifs with ha hb hc
  · constructor <;> linarith
  · push_cast; constructor <;> linarith
  · have : y - ⌊y⌋ = 1 / 2 := le_antisymm (not_lt.mp hb) (not_lt.mp ha)
    constructor <;> linarith
  · have : y - ⌊y⌋ = 1 / 2 := le_antisymm (not_lt.mp hb) (not_lt.mp ha)
    push_cast; constructor <;> linarith

/-- An integer is its own rounding. -/
lemma round_half_even_intCast (m : ℤ) : round_half_even (m : ℚ) = m := by
  unfold round_half_even
  simp

/-- The conversion moves a value by at most half the spacing of binary32 at the value. -/
lemma to_float_error (x : ℚ) :
    |to_float x - x| ≤ (2 : ℚ) ^ (max (binade |x|) (-126) - 23) / 2 := by
  unfold to_float
  by_cases hx : x = 0
  · simp only [hx, if_true, sub_self, abs_zero]
    positivity
  · simp only [hx, if_false]
    rw [pow2_eq_zpow]
    set u := (2 : ℚ) ^ (max (binade |x|) (-126) - 23) with hu
    have hupos : 0 < u := by positivity
    have h := round_half_even_error (x / u)
    have : (round_half_even (x / u) : ℚ) * u - x = ((round_half_even (x / u) : ℚ) - x / u) * u := by
      field_simp
    rw [this, abs_mul, abs_of_pos hupos]
    calc |(round_half_even (x / u) : ℚ) - x / u| * u ≤ 1 / 2 * u :=
          mul_le_mul_of_nonneg_right h hupos.le
      _ = u / 2 := by ring

/-- In the normal range of binary32 the relative error of the conversion is at most
`2 ^ (-24)`. -/
lemma to_float_relative_error (x : ℚ) (hx : (2 : ℚ) ^ (-126 : ℤ) ≤ |x|) :
    |to_float x - x| ≤ |x| / 2 ^ 24 := by
  have hpos : 0 < |x| := lt_of_lt_of_le (by positivity) hx
  obtain ⟨ha, hb⟩ := binade_spec |x| hpos
  have he : (-126 : ℤ) ≤ binade |x| := by
    by_contra hlt
    have hlt' : binade |x| + 1 ≤ -126 := by omega
    have : (2 : ℚ) ^ (binade |x| + 1) ≤ (2 : ℚ) ^ (-126 : ℤ) :=
      zpow_le_zpow_right₀ (by norm_num) hlt'
    linarith
  have h := to_float_error x
  rw [max_eq_left he] at h
  have hsplit : (2 : ℚ) ^ (binade |x| - 23) = (2 : ℚ) ^ binade |x| / 2 ^ 23 := by
    rw [zpow_sub₀ (by norm_num)]
    norm_num
  rw [hsplit] at h
  calc |to_float x - x| ≤ (2 : ℚ) ^ binade |x| / 2 ^ 23 / 2 := h
    _ = (2 : ℚ) ^ binade |x| / 2 ^ 24 := by ring
    _ ≤ |x| / 2 ^ 24 := by
        apply div_le_div_of_nonneg_right ha (by positivity)

/-- The values of binary32 are fixed by the conversion: a multiple of the spacing at `x`
is returned unchanged. -/
lemma to_float_of_multiple (x : ℚ) (m : ℤ)
    (h : x = (m : ℚ) * (2 : ℚ) ^ (max (binade |x|) (-126) - 23)) : to_float x = x := by
  unfold to_float
  by_cases hx : x = 0
  · simp [hx]
  · simp only [hx, if_false]
    rw [pow2_eq_zpow]
    set u := (2 : ℚ) ^ (max (binade |x|) (-126) - 23) with hu
    have hupos : 0 < u := by positivity
    have : x / u = (m : ℚ) := by
      rw [h]; field_simp
    rw [this, round_half_even_intCast]
    exact h.symm

/-- Values of the conversion: decimals, a tie to the even neighbour above and below, and
the subnormal range. -/
lemma to_float_values :
    to_float (7 / 10) = 11744051 / 2 ^ 24 ∧ to_float (17 / 10) = 7130317 / 2 ^ 22 ∧
      to_float (12 / 5) = 5033165 / 2 ^ 21 ∧ to_float (1 / 10) = 13421773 / 2 ^ 27 ∧
      to_float 1 = 1 ∧ to_float (-3 / 2) = -3 / 2 ∧
      to_float (1 + 1 / 2 ^ 24) = 1 ∧ to_float (1 + 3 / 2 ^ 24) = 1 + 1 / 2 ^ 22 ∧
      to_float (1 / 2 ^ 149) = 1 / 2 ^ 149 ∧ to_float (1 / 2 ^ 150) = 0 ∧
      to_float (3 / 2 ^ 150) = 1 / 2 ^ 148 := by
  decide!

/-! ## The collision check, crop by crop -/

lemma mem_pcl_ptr_box_crop (pc : List Vector3d) (c d o : Vector3d) :
    o ∈ pcl_ptr_box_crop pc c d ↔
      o ∈ pc ∧ to_float (c.x - d.x / 2) ≤ o.x ∧ o.x ≤ to_float (c.x + d.x / 2) ∧
        to_float (c.y - d.y / 2) ≤ o.y ∧ o.y ≤ to_float (c.y + d.y / 2) ∧
        to_float (c.z - d.z / 2) ≤ o.z ∧ o.z ≤ to_float (c.z + d.z / 2) := by
  simp [pcl_ptr_box_crop, crop_box_filter, narrow_to_float, List.mem_filter, Vector3d.sub,
    Vector3d.add, Vector3d.div]

lemma kdtree_collide_pcl_bool_iff (s : Vector3d) (obs : List Vector3d) (c : ℚ) :
    kdtree_collide_pcl_bool s obs c = true ↔
      ∃ o ∈ obs, ((narrow_to_float s).sub o).squaredNorm ≤ to_float c * to_float c := by
  unfold kdtree_collide_pcl_bool radiusSearch
  simp only [List.length_pos, ne_eq, ite_eq_left_iff, Bool.false_eq_true, imp_false,
    Decidable.not_not]
  constructor
  · intro h
    obtain ⟨o, ho⟩ := List.exists_mem_of_ne_nil _ h
    rw [List.mem_filter] at ho
    exact ⟨o, ho.1, by simpa using ho.2⟩
  · rintro ⟨o, ho, hd⟩
    apply List.ne_nil_of_mem (a := o)
    rw [List.mem_filter]
    exact ⟨ho, by simpa using hd⟩

lemma kdtree_collide_pcl_bool_eq_false_iff (s : Vector3d) (obs : List Vector3d) (c : ℚ) :
    kdtree_collide_pcl_bool s obs c = false ↔
      ∀ o ∈ obs, to_float c * to_float c < ((narrow_to_float s).sub o).squaredNorm := by
  rw [← Bool.not_eq_true, kdtree_collide_pcl_bool_iff]
  push_neg
  rfl

lemma check_line_loop_iff (local_obs : List Vector3d) (cc : Vector3d) (t : ℚ) :
    ∀ samples : List Vector3d,
      check_line_loop local_obs cc t samples = true ↔
        ∀ s ∈ samples, kdtree_collide_pcl_bool s (pcl_ptr_box_crop local_obs s cc) t = false := by
  intro samples
  induction samples with
  | nil => simp [check_line_loop]
  | cons s rest ih =>
    simp only [check_line_loop, List.mem_cons, forall_eq_or_imp]
    by_cases hlen : (pcl_ptr_box_crop local_obs s cc).length = 0
    · have hnil : pcl_ptr_box_crop local_obs s cc = [] := List.length_eq_zero.mp hlen
      have hno : kdtree_collide_pcl_bool s (pcl_ptr_box_crop local_obs s cc) t = false := by
        rw [hnil]; simp [kdtree_collide_pcl_bool, radiusSearch]
      simp only [hlen, if_true, ih, hno, true_and]
    · simp only [hlen, if_false]
      by_cases hc : kdtree_collide_pcl_bool s (pcl_ptr_box_crop local_obs s cc) t = true
      · simp [hc]
      · have hc' : kdtree_collide_pcl_bool s (pcl_ptr_box_crop local_obs s cc) t = false := by
          simpa using hc
        simp only [hc', Bool.false_eq_true, if_false, ih, true_and]

/-- The segment is accepted exactly when, for every sample, the radius query against the
points kept by the two crops finds nothing. -/
lemma check_line_validity_with_pcl_iff_queries (p q : Vector3d) (t : ℚ) (obs : List Vector3d) :
    check_line_validity_with_pcl p q t obs = true ↔
      ∀ s ∈ line_vector p q (ceil_norm_div (p.sub q) t),
        kdtree_collide_pcl_bool s
          (pcl_ptr_box_crop (segment_local_obs p q t obs) s ⟨2 * t, 2 * t, 2 * t⟩) t = false := by
  unfold check_line_validity_with_pcl
  simp only
  rw [← segment_local_obs]
  by_cases hlen : (segment_local_obs p q t obs).length = 0
  · simp only [hlen, if_true, true_iff]
    intro s _
    rw [List.length_eq_zero.mp hlen]
    simp [kdtree_collide_pcl_bool, radiusSearch, pcl_ptr_box_crop, crop_box_filter]
  · simp only [hlen, if_false]
    rw [check_line_loop_iff]

/-- The segment is accepted exactly when no obstacle point kept by the two crops lies
within the narrowed radius of a narrowed sample. -/
lemma check_line_validity_with_pcl_iff (p q : Vector3d) (t : ℚ) (obs : List Vector3d) :
    check_line_validity_with_pcl p q t obs = true ↔
      ∀ s ∈ line_vector p q (ceil_norm_div (p.sub q) t),
        ∀ o ∈ pcl_ptr_box_crop (segment_local_obs p q t obs) s ⟨2 * t, 2 * t, 2 * t⟩,
          to_float t * to_float t < ((narrow_to_float s).sub o).squaredNorm := by
  rw [check_line_validity_with_pcl_iff_queries]
  constructor
  · intro h s hs
    exact (kdtree_collide_pcl_bool_eq_false_iff _ _ _).mp (h s hs)
  · intro h s hs
    exact (kdtree_collide_pcl_bool_eq_false_iff _ _ _).mpr (h s hs)

/-! ## Points of the segment are covered by the samples -/

lemma squaredNorm_sample_sub_point (p q : Vector3d) (n : ℤ) (i : ℕ) (lam : ℚ) :
    ((sample_at p q n i).sub (point_on_line p q lam)).squaredNorm =
      ((i : ℚ) / ((n : ℚ) - 1) - lam) ^ 2 * (p.sub q).squaredNorm := by
  simp only [sample_at, point_on_line, Vector3d.sub, Vector3d.add, Vector3d.smul,
    Vector3d.squaredNorm]
  ring

/-- Every point of the closed segment lies within the radius of some sample. -/
lemma exists_sample_near_of_on_segment (p q : Vector3d) (t : ℚ) (ht : 0 < t) (lam : ℚ)
    (h0 : 0 ≤ lam) (h1 : lam ≤ 1) :
    ∃ s ∈ line_vector p q (ceil_norm_div (p.sub q) t),
      (s.sub (point_on_line p q lam)).squaredNorm ≤ t * t := by
  rw [ceil_norm_div_pos_threshold _ t ht]
  have hd := squaredNorm_le_count_sq (p.sub q) t ht
  have hd0 := squaredNorm_nonneg (p.sub q)
  set n : ℕ := ceil_sqrt ⌈(p.sub q).squaredNorm / (t * t)⌉₊ with hn
  have htt : 0 ≤ t * t := mul_self_nonneg t
  by_cases hsmall : n ≤ 1
  · refine ⟨p, start_mem_line_vector p q _, ?_⟩
    have hp : p = sample_at p q (n : ℤ) 0 := by simp [sample_at]
    have hsq := squaredNorm_sample_sub_point p q (n : ℤ) 0 lam
    rw [← hp] at hsq
    rw [hsq]
    simp only [Nat.cast_zero, zero_div, zero_sub, even_two, Even.neg_pow]
    have hn1 : ((n : ℚ)) ^ 2 ≤ 1 := by
      have : (n : ℚ) ≤ 1 := by exact_mod_cast hsmall
      have hnn : (0 : ℚ) ≤ (n : ℚ) := by positivity
      nlinarith
    have hlam : lam ^ 2 ≤ 1 := by nlinarith
    have hd2 : (p.sub q).squaredNorm ≤ t * t := by nlinarith
    calc lam ^ 2 * (p.sub q).squaredNorm ≤ 1 * (p.sub q).squaredNorm :=
          mul_le_mul_of_nonneg_right hlam hd0
      _ ≤ t * t := by linarith
  · have hn2 : 2 ≤ n := by omega
    have hnq : (2 : ℚ) ≤ (n : ℚ) := by exact_mod_cast hn2
    set m : ℚ := (n : ℚ) - 1 with hm
    have hmpos : 0 < m := by linarith
    set x : ℚ := lam * m with hx
    have hx0 : 0 ≤ x := mul_nonneg h0 hmpos.le
    have hxm : x ≤ m := by nlinarith
    have hr := abs_sub_round x
    rw [abs_le] at hr
    have hr0 : 0 ≤ round x := by
      by_contra hneg
      have : round x ≤ -1 := by omega
      have : ((round x : ℤ) : ℚ) ≤ -1 := by exact_mod_cast this
      linarith [hr.2]
    have hrm : round x ≤ (n : ℤ) - 1 := by
      by_contra hbig
      have : (n : ℤ) ≤ round x := by omega
      have : ((n : ℤ) : ℚ) ≤ ((round x : ℤ) : ℚ) := by exact_mod_cast this
      simp only [Int.cast_natCast] at this
      linarith [hr.1]
    set i : ℕ := (round x).toNat with hi
    have hicast : ((i : ℕ) : ℚ) = ((round x : ℤ) : ℚ) := by
      have : ((i : ℕ) : ℤ) = round x := Int.toNat_of_nonneg hr0
      exact_mod_cast this
    have hilt : i < ((n : ℤ) - 1).toNat + 1 := by omega
    refine ⟨sample_at p q (n : ℤ) i, (mem_line_vector p q _ _).mpr ⟨i, hilt, rfl⟩, ?_⟩
    rw [squaredNorm_sample_sub_point]
    simp only [Int.cast_natCast]
    rw [← hm, hicast]
    set e : ℚ := ((round x : ℤ) : ℚ) - x with he
    have he2 : e ^ 2 ≤ 1 / 4 := by
      have h1' : -(1 / 2 : ℚ) ≤ e := by rw [he]; linarith [hr.2]
      have h2' : e ≤ 1 / 2 := by rw [he]; linarith [hr.1]
      nlinarith
    have hfrac : ((round x : ℤ) : ℚ) / m - lam = e / m := by
      rw [he, hx]; field_simp; ring
    rw [hfrac, div_pow]
    have hm2 : 0 < m ^ 2 := by positivity
    rw [div_mul_eq_mul_div, div_le_iff₀ hm2]
    have hnm : (n : ℚ) ^ 2 ≤ 4 * m ^ 2 := by
      have : (n : ℚ) ≤ 2 * m := by rw [hm]; linarith
      have hnn : (0 : ℚ) ≤ (n : ℚ) := by positivity
      nlinarith
    have he0 : 0 ≤ e ^ 2 := sq_nonneg e
    calc e ^ 2 * (p.sub q).squaredNorm
        ≤ (1 / 4) * ((n : ℚ) ^ 2 * (t * t)) := by
          apply mul_le_mul he2 hd hd0 (by norm_num)
      _ ≤ (1 / 4) * (4 * m ^ 2 * (t * t)) := by
          have hmul := mul_le_mul_of_nonneg_right hnm htt
          exact mul_le_mul_of_nonneg_left hmul (by norm_num)
      _ = t * t * m ^ 2 := by ring

/-! ## Links of the tree -/

lemma push_child_link (s : State) (a c ptr : NodePtr) :
    (s.push_child a c).link ptr = s.link ptr := by
  cases a <;> cases ptr <;> simp [State.link, State.deref, State.push_child]
  rename_i k j
  rw [List.getElem?_modify]
  cases s.heap[j]? <;> by_cases hkj : k = j <;> simp [hkj]

lemma push_child_sameConfig (s : State) (a c : NodePtr) : SameConfig s (s.push_child a c) := by
  cases a <;> simp [SameConfig, State.push_child]

lemma push_child_nodes (s : State) (a c : NodePtr) : (s.push_child a c).nodes = s.nodes := by
  cases a <;> rfl

lemma push_child_reached (s : State) (a c : NodePtr) :
    (s.push_child a c).reached = s.reached := by
  cases a <;> rfl

lemma push_child_iter (s : State) (a c : NodePtr) : (s.push_child a c).iter = s.iter := by
  cases a <;> rfl

lemma push_child_heap_length (s : State) (a c : NodePtr) :
    (s.push_child a c).heap.length = s.heap.length := by
  cases a <;> simp [State.push_child]

lemma push_child_end_parent (s : State) (a c : NodePtr) :
    (s.push_child a c).end_node.parent = s.end_node.parent := by
  cases a <;> rfl

lemma push_child_end_position (s : State) (a c : NodePtr) :
    (s.push_child a c).end_node.position = s.end_node.position := by
  cases a <;> rfl

lemma sameConfig_refl (s : State) : SameConfig s s := by simp [SameConfig]

lemma sameConfig_trans {a b c : State} (h1 : SameConfig a b) (h2 : SameConfig b c) :
    SameConfig a c := by
  unfold SameConfig at *
  obtain ⟨a1, a2, a3, a4, a5, a6, a7, a8, a9, a10, a11, a12⟩ := h1
  obtain ⟨b1, b2, b3, b4, b5, b6, b7, b8, b9, b10, b11, b12⟩ := h2
  exact ⟨b1.trans a1, b2.trans a2, b3.trans a3, b4.trans a4, b5.trans a5, b6.trans a6,
    b7.trans a7, b8.trans a8, b9.trans a9, b10.trans a10, b11.trans a11, b12.trans a12⟩

/-! ### Linking the new node -/

lemma insert_step_node_link_new (s : State) (sel : NodePtr) (position : Vector3d) :
    (s.insert_step_node sel position).link (NodePtr.heap s.heap.length) =
      some (some sel, position) := by
  unfold State.insert_step_node
  simp only
  rw [push_child_link]
  simp [State.link, State.deref]

lemma insert_step_node_link_heap (s : State) (sel : NodePtr) (position : Vector3d) (k : ℕ)
    (hk : k ≠ s.heap.length) :
    (s.insert_step_node sel position).link (NodePtr.heap k) = s.link (NodePtr.heap k) := by
  unfold State.insert_step_node
  simp only
  rw [push_child_link]
  simp only [State.link, State.deref]
  rcases Nat.lt_or_gt_of_ne hk with hlt | hgt
  · rw [List.getElem?_append_left hlt]
  · rw [List.getElem?_eq_none (by simp; omega), List.getElem?_eq_none (by omega)]

lemma insert_step_node_link_start (s : State) (sel : NodePtr) (position : Vector3d) :
    (s.insert_step_node sel position).link NodePtr.start_node = s.link NodePtr.start_node := by
  unfold State.insert_step_node
  simp only
  rw [push_child_link]
  rfl

lemma insert_step_node_link_end (s : State) (sel : NodePtr) (position : Vector3d) :
    (s.insert_step_node sel position).link NodePtr.end_node = s.link NodePtr.end_node := by
  unfold State.insert_step_node
  simp only
  rw [push_child_link]
  rfl

lemma insert_step_node_nodes (s : State) (sel : NodePtr) (position : Vector3d) :
    (s.insert_step_node sel position).nodes = s.nodes ++ [NodePtr.heap s.heap.length] := by
  unfold State.insert_step_node
  simp only
  rw [push_child_nodes]

lemma insert_step_node_heap_length (s : State) (sel : NodePtr) (position : Vector3d) :
    (s.insert_step_node sel position).heap.length = s.heap.length + 1 := by
  unfold State.insert_step_node
  simp only
  rw [push_child_heap_length]
  simp

lemma insert_step_node_sameConfig (s : State) (sel : NodePtr) (position : Vector3d) :
    SameConfig s (s.insert_step_node sel position) := by
  unfold State.insert_step_node
  simp only
  exact sameConfig_trans (by simp [SameConfig]) (push_child_sameConfig _ _ _)

lemma insert_step_node_reached (s : State) (sel : NodePtr) (position : Vector3d) :
    (s.insert_step_node sel position).reached = s.reached := by
  unfold State.insert_step_node
  simp only
  rw [push_child_reached]

lemma insert_step_node_iter (s : State) (sel : NodePtr) (position : Vector3d) :
    (s.insert_step_node sel position).iter = s.iter := by
  unfold State.insert_step_node
  simp only
  rw [push_child_iter]

/-! ### Attaching the goal -/

/-- After `nodes.push_back(&end_node)` the last element of `nodes` is `&end_node`, so the
goal node is appended to its own list of children. -/
lemma attach_end_node_eq (s : State) (step_ptr : NodePtr) :
    s.attach_end_node step_ptr =
      some (State.push_child
        { s with
          reached := true
          end_node := { s.end_node with parent := some step_ptr }
          nodes := s.nodes ++ [NodePtr.end_node] } NodePtr.end_node NodePtr.end_node) := by
  unfold State.attach_end_node
  simp

/-! ### One growth step -/

lemma link_end_position {s s' : State} (h : s'.link NodePtr.end_node = s.link NodePtr.end_node) :
    s'.end_node.position = s.end_node.position ∧ s'.end_node.parent = s.end_node.parent := by
  simp only [State.link, State.deref, Option.map_some', Option.some.injEq, Prod.mk.injEq] at h
  exact ⟨h.2, h.1⟩

/-- The outcomes of one growth step: nothing changes, or a node is inserted below a node
of the collection after passing the no fly test and the collision check. -/
lemma search_single_node_spec (T : Trig) (s s' : State) (d : Draw)
    (h : search_single_node T s d = some s') :
    ∃ (i : ℕ) (sel : NodePtr) (sel_node : Node) (original_position : Vector3d),
      random_idx_selector s.nodes.length d.idx_value = (i : ℤ) ∧
      s.nodes[i]? = some sel ∧ s.deref sel = some sel_node ∧
      transform_vector T (node_stepping s sel_node.position d.random_vector d.random_value)
        s.rotation s.translation "backward" = some original_position ∧
      ((s' = s ∧ (in_no_fly_zone s.no_fly_zone original_position = true ∨
          check_line_validity_with_pcl sel_node.position
            (node_stepping s sel_node.position d.random_vector d.random_value)
            s.obs_threshold s.obs = false)) ∨
        (in_no_fly_zone s.no_fly_zone original_position = false ∧
          check_line_validity_with_pcl sel_node.position
            (node_stepping s sel_node.position d.random_vector d.random_value)
            s.obs_threshold s.obs = true ∧
          Inserted s s' sel
            (node_stepping s sel_node.position d.random_vector d.random_value))) := by
  unfold search_single_node at h
  simp only at h
  split_ifs at h with hidx
  have hi0 : 0 ≤ random_idx_selector s.nodes.length d.idx_value := by
    by_contra hc; exact hidx (Or.inl (by omega))
  split at h
  · exact absurd h (by simp)
  rename_i sel hsel
  split at h
  · exact absurd h (by simp)
  rename_i sel_node hderef
  split at h
  · exact absurd h (by simp)
  rename_i original_position htrans
  refine ⟨(random_idx_selector s.nodes.length d.idx_value).toNat, sel, sel_node,
    original_position, (Int.toNat_of_nonneg hi0).symm, hsel, hderef, htrans, ?_⟩
  set position := node_stepping s sel_node.position d.random_vector d.random_value
    with hposition
  have hcfg := insert_step_node_sameConfig s sel position
  obtain ⟨hendpos, hendpar⟩ := link_end_position (insert_step_node_link_end s sel position)
  have hobs : (s.insert_step_node sel position).obs = s.obs := hcfg.1
  have hthr : (s.insert_step_node sel position).obs_threshold = s.obs_threshold :=
    hcfg.2.2.2.2.1
  have hstep : (s.insert_step_node sel position).step_size = s.step_size := hcfg.2.2.1
  split_ifs at h with hnf hflag hgoal
  · left; exact ⟨(Option.some.inj h).symm, Or.inl hnf⟩
  · left; refine ⟨(Option.some.inj h).symm, Or.inr ?_⟩
    simpa using hflag
  · right
    refine ⟨by simpa using hnf, by simpa using hflag, ?_⟩
    rw [attach_end_node_eq] at h
    have hs' := (Option.some.inj h).symm
    simp only [Bool.and_eq_true, decide_eq_true_eq] at hgoal
    rw [hendpos, hobs, hthr, hstep] at hgoal
    subst hs'
    refine ⟨?_, ?_, ?_, ?_, ?_, ?_, Or.inr ⟨?_, ?_, ?_, ?_, hgoal.1, hgoal.2⟩⟩
    · rw [push_child_heap_length]; exact insert_step_node_heap_length s sel position
    · rw [push_child_link]; exact insert_step_node_link_new s sel position
    · intro k hk; rw [push_child_link]; exact insert_step_node_link_heap s sel position k hk
    · rw [push_child_link]; exact insert_step_node_link_start s sel position
    · rw [push_child_end_position]; exact hendpos
    · exact sameConfig_trans hcfg (sameConfig_trans (by simp [SameConfig])
        (push_child_sameConfig _ _ _))
    · rw [push_child_reached]
    · rw [push_child_end_parent]
    · rw [push_child_nodes]; simp [insert_step_node_nodes]
    · rw [push_child_iter]; exact insert_step_node_iter s sel position
  · right
    refine ⟨by simpa using hnf, by simpa using hflag, ?_⟩
    have hs' := (Option.some.inj h).symm
    simp only [Bool.and_eq_true, decide_eq_true_eq] at hgoal
    rw [hendpos, hobs, hthr, hstep] at hgoal
    subst hs'
    refine ⟨?_, ?_, ?_, ?_, ?_, ?_, Or.inl ⟨?_, ?_, ?_, ?_, hgoal⟩⟩
    · exact insert_step_node_heap_length s sel position
    · exact insert_step_node_link_new s sel position
    · intro k hk; exact insert_step_node_link_heap s sel position k hk
    · exact insert_step_node_link_start s sel position
    · exact hendpos
    · exact sameConfig_trans hcfg (by simp [SameConfig])
    · exact insert_step_node_reached s sel position
    · exact hendpar
    · exact insert_step_node_nodes s sel position
    · simp [insert_step_node_iter]

/-! ## The tree invariant -/

lemma link_of_deref {s : State} {ptr : NodePtr} {nd : Node} (h : s.deref ptr = some nd) :
    s.link ptr = some (nd.parent, nd.position) := by
  simp [State.link, h]

lemma deref_of_link {s : State} {ptr : NodePtr} {par : Option NodePtr} {pos : Vector3d}
    (h : s.link ptr = some (par, pos)) :
    ∃ nd, s.deref ptr = some nd ∧ nd.parent = par ∧ nd.position = pos := by
  unfold State.link at h
  cases hd : s.deref ptr with
  | none => simp [hd] at h
  | some nd =>
    simp only [hd, Option.map_some', Option.some.injEq, Prod.mk.injEq] at h
    exact ⟨nd, rfl, h.1, h.2⟩

/-- A growth step that starts before the goal is reached keeps the tree invariant. -/
lemma TreeInv.search_single_node (T : Trig) (s s' : State) (d : Draw) (hinv : TreeInv s)
    (hnr : s.reached = false) (h : search_single_node T s d = some s') : TreeInv s' := by
  obtain ⟨i, sel, sel_node, op, _, hsel, hderef, _, hcase⟩ :=
    search_single_node_spec T s s' d h
  rcases hcase with ⟨rfl, _⟩ | ⟨_, hflag, hins⟩
  · exact hinv
  have hselmem : sel ∈ s.nodes := List.getElem?_mem hsel
  have hselok : sel = NodePtr.start_node ∨ ∃ k, sel = NodePtr.heap k ∧ k < s.heap.length := by
    rcases hinv.nodes_ok sel hselmem with h1 | h1 | h1
    · exact Or.inl h1
    · exact Or.inr h1
    · rw [hnr] at h1; exact absurd h1.2 (by simp)
  have hobs : s'.obs = s.obs := hins.config.1
  have hthr : s'.obs_threshold = s.obs_threshold := hins.config.2.2.2.2.1
  have hlinksel : s'.link sel = s.link sel := by
    rcases hselok with rfl | ⟨k, rfl, hk⟩
    · exact hins.link_start
    · exact hins.link_old k (by omega)
  have hnodes' : s'.nodes = s.nodes ++ [NodePtr.heap s.heap.length] ∨
      (s'.nodes = s.nodes ++ [NodePtr.heap s.heap.length, NodePtr.end_node] ∧
        s'.reached = true) := by
    rcases hins.goal with hg | hg
    · exact Or.inl hg.2.2.1
    · exact Or.inr ⟨hg.2.2.1, hg.1⟩
  refine ⟨?_, ?_, ?_, ?_, ?_⟩
  · intro ptr hptr
    have hold : ptr ∈ s.nodes → ptr = NodePtr.start_node ∨
        (∃ k, ptr = NodePtr.heap k ∧ k < s'.heap.length) ∨
        (ptr = NodePtr.end_node ∧ s'.reached = true) := by
      intro hm
      rcases hinv.nodes_ok ptr hm with h1 | ⟨k, h1, h2⟩ | h1
      · exact Or.inl h1
      · exact Or.inr (Or.inl ⟨k, h1, by rw [hins.heap_length]; omega⟩)
      · rw [hnr] at h1; exact absurd h1.2 (by simp)
    have hnew : ptr = NodePtr.heap s.heap.length → ptr = NodePtr.start_node ∨
        (∃ k, ptr = NodePtr.heap k ∧ k < s'.heap.length) ∨
        (ptr = NodePtr.end_node ∧ s'.reached = true) := by
      intro hm
      exact Or.inr (Or.inl ⟨s.heap.length, hm, by rw [hins.heap_length]; omega⟩)
    rcases hnodes' with hn | ⟨hn, hr⟩
    · rw [hn, List.mem_append, List.mem_singleton] at hptr
      rcases hptr with hm | hm
      · exact hold hm
      · exact hnew hm
    · rw [hn, List.mem_append] at hptr
      rcases hptr with hm | hm
      · exact hold hm
      · simp only [List.mem_cons, List.mem_singleton, List.not_mem_nil, or_false] at hm
        rcases hm with hm | hm
        · exact hnew hm
        · exact Or.inr (Or.inr ⟨hm, hr⟩)
  · intro _
    have h1 := hins.link_start
    have hroot := hinv.root (List.ne_nil_of_mem hselmem)
    simp only [State.link, State.deref, Option.map_some', Option.some.injEq,
      Prod.mk.injEq] at h1
    rw [h1.1, hroot]
  · intro _
    rcases hnodes' with hn | ⟨hn, _⟩ <;> rw [hn] <;> simp
  · intro k hk
    rw [hins.heap_length] at hk
    rcases Nat.lt_succ_iff_lt_or_eq.mp hk with hlt | heq
    · obtain ⟨par, pos, ppar, ppos, hl, hpar, hlp, hc⟩ := hinv.heap_ok k hlt
      refine ⟨par, pos, ppar, ppos, ?_, hpar, ?_, ?_⟩
      · rw [hins.link_old k (by omega)]; exact hl
      · rcases hpar with rfl | ⟨j, rfl, hj⟩
        · rw [hins.link_start]; exact hlp
        · rw [hins.link_old j (by omega)]; exact hlp
      · rw [hobs, hthr]; exact hc
    · subst heq
      refine ⟨sel, _, sel_node.parent, sel_node.position, hins.link_new, ?_, ?_, ?_⟩
      · rcases hselok with h1 | ⟨j, h1, hj⟩
        · exact Or.inl h1
        · exact Or.inr ⟨j, h1, hj⟩
      · rw [hlinksel]; exact link_of_deref hderef
      · rw [hobs, hthr]; exact hflag
  · intro hr
    rcases hins.goal with hg | hg
    · rw [hg.1, hnr] at hr; exact absurd hr (by simp)
    · refine ⟨s.heap.length, _, some sel, hg.2.1, by rw [hins.heap_length]; omega,
        hins.link_new, ?_⟩
      rw [hobs, hthr, hins.end_position]
      exact hg.2.2.2.2.1

/-! ## Path extraction along a parent chain -/

lemma path_extraction_loop_chain (s : State) : ∀ (rest : List Node) (up down : Node)
    (path : List Vector3d) (fuel : ℕ), ParentChain s down (up :: rest) →
    rest.length + 1 ≤ fuel →
    path_extraction_loop s fuel up down path =
      some (path ++ ((down :: (up :: rest)).dropLast).map Node.position) := by
  intro rest
  induction rest with
  | nil =>
    intro up down path fuel hchain hfuel
    obtain ⟨fuel', rfl⟩ : ∃ f, fuel = f + 1 := ⟨fuel - 1, by simp at hfuel; omega⟩
    obtain ⟨_, hup⟩ := hchain
    simp only [ParentChain] at hup
    simp [path_extraction_loop, hup]
  | cons m rest ih =>
    intro up down path fuel hchain hfuel
    obtain ⟨fuel', rfl⟩ : ∃ f, fuel = f + 1 := ⟨fuel - 1, by simp at hfuel; omega⟩
    obtain ⟨⟨p, hp, hdp⟩, hup⟩ := hchain
    obtain ⟨⟨p', hp', hdp'⟩, hrest⟩ := id hup
    have hfuel' : rest.length + 1 ≤ fuel' := by simp at hfuel; omega
    rw [path_extraction_loop]
    simp only [hp', hdp', hp, Option.some_bind, hdp]
    rw [ih m up (path ++ [down.position]) fuel' hup hfuel']
    simp [List.dropLast]

/-- Along a parent chain from the goal node, `path_extraction` returns the positions of
the goal node and of its ancestors except the last one, in that order. -/
lemma path_extraction_chain (s : State) (anc : List Node) (fuel : ℕ)
    (hchain : ParentChain s s.end_node anc) (hne : anc ≠ []) (hfuel : anc.length ≤ fuel) :
    path_extraction s fuel = some (((s.end_node :: anc).dropLast).map Node.position) := by
  cases anc with
  | nil => exact absurd rfl hne
  | cons up rest =>
    obtain ⟨⟨p, hp, hdp⟩, _⟩ := id hchain
    unfold path_extraction
    simp only [hp, Option.some_bind, hdp]
    rw [path_extraction_loop_chain s rest up s.end_node [] fuel hchain (by simpa using hfuel)]
    simp

/-! ## The chain of an engine state -/

lemma TreeInv.chain_of_heap {s : State} (hinv : TreeInv s) :
    ∀ (k : ℕ) (nd : Node), s.heap[k]? = some nd →
      ∃ rest, ParentChain s nd rest ∧ rest ≠ [] ∧ rest.length ≤ k + 1 ∧
        List.Chain' (EdgeChecked s) (nd :: rest) := by
  intro k
  induction k using Nat.strong_induction_on with
  | _ k ih =>
    intro nd hnd
    have hk : k < s.heap.length := by
      by_contra hc
      rw [List.getElem?_eq_none (by omega)] at hnd
      exact absurd hnd (by simp)
    obtain ⟨par, pos, ppar, ppos, hl, hpar, hlp, hc⟩ := hinv.heap_ok k hk
    have hl' := @link_of_deref s (NodePtr.heap k) nd hnd
    rw [hl] at hl'
    simp only [Option.some.injEq, Prod.mk.injEq] at hl'
    obtain ⟨hparent, hpos⟩ := hl'
    obtain ⟨pn, hpn, hpnpar, hpnpos⟩ := deref_of_link hlp
    have hedge : EdgeChecked s nd pn := by
      unfold EdgeChecked
      rw [hpnpos, ← hpos]; exact hc
    rcases hpar with rfl | ⟨j, rfl, hj⟩
    · have hne : s.nodes ≠ [] := hinv.heap_nodes (List.ne_nil_of_length_pos (by omega))
      have hroot := hinv.root hne
      simp only [State.deref, Option.some.injEq] at hpn
      subst hpn
      refine ⟨[s.start_node], ⟨⟨NodePtr.start_node, hparent.symm, rfl⟩, hroot⟩, by simp,
        by simp, ?_⟩
      simp [hedge]
    · simp only [State.deref] at hpn
      obtain ⟨rest, hch, hne, hlen, hchk⟩ := ih j hj pn hpn
      refine ⟨pn :: rest, ⟨⟨NodePtr.heap j, hparent.symm, hpn⟩, hch⟩, by simp,
        by simp; omega, ?_⟩
      exact List.Chain'.cons hedge hchk

/-- In a state that satisfies the tree invariant and has reached the goal, the goal node
has a parent chain of at least two nodes whose edges all passed the collision check. -/
lemma TreeInv.chain_of_goal {s : State} (hinv : TreeInv s) (hr : s.reached = true) :
    ∃ anc, ParentChain s s.end_node anc ∧ 2 ≤ anc.length ∧
      anc.length ≤ s.heap.length + 1 ∧
      List.Chain' (EdgeChecked s) (s.end_node :: anc) := by
  obtain ⟨k, pos, ppar, hpar, hk, hl, hc⟩ := hinv.goal_ok hr
  obtain ⟨nd, hnd, _, hndpos⟩ := deref_of_link hl
  simp only [State.deref] at hnd
  obtain ⟨rest, hch, hne, hlen, hchk⟩ := hinv.chain_of_heap k nd hnd
  refine ⟨nd :: rest, ⟨⟨NodePtr.heap k, hpar, hnd⟩, hch⟩, ?_, by simp; omega, ?_⟩
  · have : 0 < rest.length := List.length_pos.mpr hne
    simp; omega
  · refine List.Chain'.cons ?_ hchk
    unfold EdgeChecked
    rw [hndpos]; exact hc

/-! ## Reachable states -/

lemma treeInv_of_untouched {s : State} (hu : Untouched s)
    (hroot : s.nodes ≠ [] → s.start_node.parent = none) : TreeInv s := by
  obtain ⟨hheap, hr, hnodes⟩ := hu
  refine ⟨fun ptr hp => Or.inl (hnodes ptr hp), hroot, fun h => absurd hheap h, ?_, ?_⟩
  · intro k hk; rw [hheap] at hk; exact absurd hk (by simp)
  · intro h; rw [hr] at h; exact absurd h (by simp)

/-- While fewer than four configuration calls were made the tree is untouched, and up to
the fourth call and during the growth that follows it the tree invariant holds. -/
lemma Reachable.inv {T : Trig} {s : State} (h : Reachable T s) :
    s.initialized ≤ 4 → TreeInv s ∧ (s.initialized < 4 → Untouched s) := by
  induction h with
  | constructed junk =>
    intro _
    have hu : Untouched (State.constructed junk) := by simp [Untouched, State.constructed]
    exact ⟨treeInv_of_untouched hu (by simp [State.constructed]), fun _ => hu⟩
  | start_end s a b _ ih =>
    intro h4
    have hlt : s.initialized < 4 := by simp [initialize_start_end] at h4; omega
    obtain ⟨hinv, hu⟩ := ih (by omega)
    obtain ⟨hheap, hr, hnodes⟩ := hu hlt
    have hu' : Untouched (initialize_start_end s a b) := by
      refine ⟨hheap, hr, ?_⟩
      intro ptr hp
      simp only [initialize_start_end, List.mem_append, List.mem_singleton] at hp
      rcases hp with hp | hp
      · exact hnodes ptr hp
      · exact hp
    exact ⟨treeInv_of_untouched hu' (by simp [initialize_start_end]), fun _ => hu'⟩
  | boundaries s a b z _ ih =>
    intro h4
    have hlt : s.initialized < 4 := by simp [initialize_boundaries] at h4; omega
    obtain ⟨hinv, hu⟩ := ih (by omega)
    have hu' : Untouched (initialize_boundaries s a b z) := hu hlt
    exact ⟨treeInv_of_untouched hu' hinv.root, fun _ => hu'⟩
  | map_characteristics s pc m o _ ih =>
    intro h4
    have hlt : s.initialized < 4 := by simp [initialize_map_characteristics] at h4; omega
    obtain ⟨hinv, hu⟩ := ih (by omega)
    have hu' : Untouched (initialize_map_characteristics s pc m o) := hu hlt
    exact ⟨treeInv_of_untouched hu' hinv.root, fun _ => hu'⟩
  | node_characteristics s a b c r t _ ih =>
    intro h4
    have hlt : s.initialized < 4 := by simp [initialize_node_characteristics] at h4; omega
    obtain ⟨hinv, hu⟩ := ih (by omega)
    have hu' : Untouched (initialize_node_characteristics s a b c r t) := hu hlt
    exact ⟨treeInv_of_untouched hu' hinv.root, fun _ => hu'⟩
  | growth s s' d _ h4 hnr hstep ih =>
    intro _
    obtain ⟨hinv, _⟩ := ih (by omega)
    refine ⟨hinv.search_single_node T s s' d hnr hstep, ?_⟩
    intro hlt
    obtain ⟨_, _, _, _, _, _, _, _, hcase⟩ := search_single_node_spec T s s' d hstep
    have : s'.initialized = s.initialized := by
      rcases hcase with ⟨rfl, _⟩ | ⟨_, _, hins⟩
      · rfl
      · exact hins.config.2.2.2.1
    omega

lemma Reachable.treeInv {T : Trig} {s : State} (h : Reachable T s) (h4 : s.initialized = 4) :
    TreeInv s := (h.inv (by omega)).1

/-- A growth step changes neither the configuration nor the goal position. -/
lemma search_single_node_frame (T : Trig) (s s' : State) (d : Draw)
    (h : search_single_node T s d = some s') :
    SameConfig s s' ∧ s'.end_node.position = s.end_node.position := by
  obtain ⟨_, _, _, _, _, _, _, _, hcase⟩ := search_single_node_spec T s s' d h
  rcases hcase with ⟨rfl, _⟩ | ⟨_, _, hins⟩
  · exact ⟨sameConfig_refl _, rfl⟩
  · exact ⟨hins.config, hins.end_position⟩

/-! ## The loop of `run_rrt_module` -/

/-- The loop keeps reachability, the configuration and the goal position; when it ends
without the error flag the goal is reached. -/
lemma run_loop_spec (T : Trig) (t0 : ℚ) : ∀ (trace : List (Draw × ℚ)) (s s' : State)
    (error : Bool), Reachable T s → s.initialized = 4 →
    run_loop T t0 trace s = some (s', error) →
    Reachable T s' ∧ SameConfig s s' ∧ s'.end_node.position = s.end_node.position ∧
      (error = false → s'.reached = true) := by
  intro trace
  induction trace with
  | nil =>
    intro s s' error hs h4 h
    unfold run_loop at h
    split_ifs at h with hr
    simp only [Option.some.injEq, Prod.mk.injEq] at h
    obtain ⟨rfl, rfl⟩ := h
    exact ⟨hs, sameConfig_refl _, rfl, fun _ => hr⟩
  | cons hd rest ih =>
    intro s s' error hs h4 h
    obtain ⟨d, now⟩ := hd
    unfold run_loop at h
    split_ifs at h with hr
    · simp only [Option.some.injEq, Prod.mk.injEq] at h
      obtain ⟨rfl, rfl⟩ := h
      exact ⟨hs, sameConfig_refl _, rfl, fun _ => hr⟩
    · simp only at h
      split at h
      · exact absurd h (by simp)
      rename_i s1 hstep
      have hnr : s.reached = false := by simpa using hr
      have hs1 : Reachable T s1 := Reachable.growth s s1 d hs h4 hnr hstep
      obtain ⟨hcfg, hend⟩ := search_single_node_frame T s s1 d hstep
      have h41 : s1.initialized = 4 := by rw [hcfg.2.2.2.1]; exact h4
      split_ifs at h with hto
      · simp only [Option.some.injEq, Prod.mk.injEq] at h
        obtain ⟨rfl, rfl⟩ := h
        exact ⟨hs1, hcfg, hend, fun h => absurd h (by simp)⟩
      · obtain ⟨a, b, c, e⟩ := ih s1 s' error hs1 h41 h
        exact ⟨a, sameConfig_trans hcfg b, c.trans hend, e⟩

/-! ## The margin that the narrowing to `float` takes -/

/-- The conversion moves a value of magnitude at most `M` by at most
`M / 2 ^ 24 + 2 ^ (-150)`. -/
lemma to_float_abs_error (x M : ℚ) (h : |x| ≤ M) :
    |to_float x - x| ≤ M / 2 ^ 24 + 1 / 2 ^ 150 := by
  have hM : 0 ≤ M := le_trans (abs_nonneg x) h
  by_cases hx : x = 0
  · subst hx
    have : to_float 0 = 0 := by simp [to_float]
    rw [this]
    simp only [sub_self, abs_zero]
    positivity
  · have hpos : 0 < |x| := abs_pos.mpr hx
    by_cases he : (-126 : ℤ) ≤ binade |x|
    · have hnorm : (2 : ℚ) ^ (-126 : ℤ) ≤ |x| :=
        le_trans (zpow_le_zpow_right₀ (by norm_num) he) (binade_spec |x| hpos).1
      have h1 := to_float_relative_error x hnorm
      have h2 : |x| / 2 ^ 24 ≤ M / 2 ^ 24 := div_le_div_of_nonneg_right h (by positivity)
      have h3 : (0 : ℚ) ≤ 1 / 2 ^ 150 := by positivity
      linarith
    · have h1 := to_float_error x
      rw [max_eq_right (by omega)] at h1
      have h2 : (2 : ℚ) ^ ((-126 : ℤ) - 23) / 2 = 1 / 2 ^ 150 := by
        rw [show ((-126 : ℤ) - 23) = -(149 : ℕ) by norm_num, zpow_neg, zpow_natCast]
        norm_num
      rw [h2] at h1
      have h3 : (0 : ℚ) ≤ M / 2 ^ 24 := by positivity
      linarith

lemma coord_bound_of_sq_le (a t : ℚ) (ht : 0 ≤ t) (h : a * a ≤ t * t) : -t ≤ a ∧ a ≤ t := by
  constructor <;> nlinarith

lemma coord_sq_le_squaredNorm (v : Vector3d) :
    v.x * v.x ≤ v.squaredNorm ∧ v.y * v.y ≤ v.squaredNorm ∧ v.z * v.z ≤ v.squaredNorm := by
  unfold Vector3d.squaredNorm
  refine ⟨?_, ?_, ?_⟩ <;> nlinarith [mul_self_nonneg v.x, mul_self_nonneg v.y, mul_self_nonneg v.z]

lemma broad_box_low (a b t : ℚ) : (a + b) / 2 - (|a - b| + 2 * t) / 2 = min a b - t := by
  rcases le_total a b with h | h
  · rw [min_eq_left h, abs_of_nonpos (by linarith)]; ring
  · rw [min_eq_right h, abs_of_nonneg (by linarith)]; ring

lemma broad_box_high (a b t : ℚ) : (a + b) / 2 + (|a - b| + 2 * t) / 2 = max a b + t := by
  rcases le_total a b with h | h
  · rw [max_eq_right h, abs_of_nonpos (by linarith)]; ring
  · rw [max_eq_left h, abs_of_nonneg (by linarith)]; ring

/-- Moving a vector `u` of length at most `R` by a vector whose coordinates are at most
`e` in absolute value gives a vector of length at most `R + 2 e`. -/
lemma squaredNorm_add_le (u w : Vector3d) (R e : ℚ) (hR : 0 ≤ R) (he : 0 ≤ e)
    (hu : u.squaredNorm ≤ R * R) (hw : |w.x| ≤ e ∧ |w.y| ≤ e ∧ |w.z| ≤ e) :
    (u.add w).squaredNorm ≤ (R + 2 * e) * (R + 2 * e) := by
  obtain ⟨hx, hy, hz⟩ := hw
  have hx2 : w.x * w.x ≤ e * e := by
    have := abs_le.mp hx; nlinarith
  have hy2 : w.y * w.y ≤ e * e := by
    have := abs_le.mp hy; nlinarith
  have hz2 : w.z * w.z ≤ e * e := by
    have := abs_le.mp hz; nlinarith
  have hw2 : w.squaredNorm ≤ 3 * (e * e) := by
    unfold Vector3d.squaredNorm; linarith
  have hu0 := squaredNorm_nonneg u
  have hw0 := squaredNorm_nonneg w
  set d := u.x * w.x + u.y * w.y + u.z * w.z with hd
  have hcs : d * d ≤ u.squaredNorm * w.squaredNorm := by
    rw [hd]
    unfold Vector3d.squaredNorm
    nlinarith [sq_nonneg (u.x * w.y - u.y * w.x), sq_nonneg (u.x * w.z - u.z * w.x),
      sq_nonneg (u.y * w.z - u.z * w.y)]
  have hprod : u.squaredNorm * w.squaredNorm ≤ (R * R) * (3 * (e * e)) :=
    mul_le_mul hu hw2 hw0 (mul_nonneg hR hR)
  have hRe : 0 ≤ R * e := mul_nonneg hR he
  have hdd : d * d ≤ (2 * (R * e)) * (2 * (R * e)) := by nlinarith
  have hdle : d ≤ 2 * (R * e) := by
    by_contra hnot
    have hlt : 2 * (R * e) < d := not_le.mp hnot
    nlinarith
  have hexp : (u.add w).squaredNorm = u.squaredNorm + 2 * d + w.squaredNorm := by
    rw [hd]
    simp only [Vector3d.add, Vector3d.squaredNorm]
    ring
  rw [hexp]
  nlinarith

/-- One axis of a crop: a coordinate within `r` of a value between `lo` and `hi` passes
the bounds `lo - t` and `hi + t` narrowed to `float`, when these move by at most `e`. -/
lemma axis_in_box (lo hi x o r t e : ℚ) (hlo : lo ≤ x) (hhi : x ≤ hi)
    (hd : -r ≤ x - o ∧ x - o ≤ r) (hm : r + e ≤ t)
    (elo : |to_float (lo - t) - (lo - t)| ≤ e) (ehi : |to_float (hi + t) - (hi + t)| ≤ e) :
    to_float (lo - t) ≤ o ∧ o ≤ to_float (hi + t) := by
  rw [abs_le] at elo ehi
  constructor <;> linarith [hd.1, hd.2, elo.1, elo.2, ehi.1, ehi.2]

lemma abs_le_of_between (a b x B : ℚ) (ha : |a| ≤ B) (hb : |b| ≤ B) (h1 : min a b ≤ x)
    (h2 : x ≤ max a b) : |x| ≤ B := by
  rw [abs_le] at ha hb ⊢
  rcases le_total a b with h | h
  · rw [min_eq_left h] at h1; rw [max_eq_right h] at h2
    constructor <;> linarith
  · rw [min_eq_right h] at h1; rw [max_eq_left h] at h2
    constructor <;> linarith

/-- The samples have their coordinates within the bound of the end points. -/
lemma coordinates_within_sample (p q s : Vector3d) (n : ℤ) (B : ℚ)
    (hp : coordinates_within B p) (hq : coordinates_within B q) (hs : s ∈ line_vector p q n) :
    coordinates_within B s := by
  obtain ⟨i, hi, rfl⟩ := (mem_line_vector p q s n).mp hs
  obtain ⟨bx1, bx2⟩ := between_of_sample p.x q.x n i hi
  obtain ⟨by1, by2⟩ := between_of_sample p.y q.y n i hi
  obtain ⟨bz1, bz2⟩ := between_of_sample p.z q.z n i hi
  exact ⟨abs_le_of_between _ _ _ B hp.1 hq.1 bx1 bx2,
    abs_le_of_between _ _ _ B hp.2.1 hq.2.1 by1 by2,
    abs_le_of_between _ _ _ B hp.2.2 hq.2.2 bz1 bz2⟩

lemma abs_sub_le_of_abs_le (x t B : ℚ) (ht : 0 ≤ t) (hx : |x| ≤ B) :
    |x - t| ≤ B + t ∧ |x + t| ≤ B + t := by
  rw [abs_le] at hx
  constructor <;> rw [abs_le] <;> constructor <;> linarith

lemma abs_min_le (a b B : ℚ) (ha : |a| ≤ B) (hb : |b| ≤ B) : |min a b| ≤ B ∧ |max a b| ≤ B := by
  rcases le_total a b with h | h
  · rw [min_eq_left h, max_eq_right h]; exact ⟨ha, hb⟩
  · rw [min_eq_right h, max_eq_left h]; exact ⟨hb, ha⟩

/-- An obstacle point within `r` of a sample makes the check fail, when `r` leaves the
margin `float_slack` below the threshold. -/
lemma check_line_validity_with_pcl_false_of_near_sample (p q s o : Vector3d) (t r B : ℚ)
    (obs : List Vector3d) (ht : 0 < t) (hr : 0 ≤ r) (hp : coordinates_within B p)
    (hq : coordinates_within B q)
    (hs : s ∈ line_vector p q (ceil_norm_div (p.sub q) t)) (ho : o ∈ obs)
    (hd : (s.sub o).squaredNorm ≤ r * r) (hm : r + float_slack B t ≤ t) :
    check_line_validity_with_pcl p q t obs = false := by
  have hsB := coordinates_within_sample p q s _ B hp hq hs
  have hB : 0 ≤ B := le_trans (abs_nonneg _) hp.1
  set e : ℚ := (B + t) / 2 ^ 24 + 1 / 2 ^ 150 with he
  have he0 : 0 ≤ e := by rw [he]; positivity
  have hslack : float_slack B t = 3 * e := rfl
  rw [hslack] at hm
  have hme : r + e ≤ t := by linarith
  -- the coordinates of `o` are within `r` of those of `s`
  obtain ⟨cx, cy, cz⟩ := coord_sq_le_squaredNorm (s.sub o)
  have dx := coord_bound_of_sq_le _ r hr (le_trans cx hd)
  have dy := coord_bound_of_sq_le _ r hr (le_trans cy hd)
  have dz := coord_bound_of_sq_le _ r hr (le_trans cz hd)
  simp only [Vector3d.sub] at dx dy dz
  -- rounding of the corners
  have err : ∀ x : ℚ, |x| ≤ B → |to_float (x - t) - (x - t)| ≤ e ∧
      |to_float (x + t) - (x + t)| ≤ e := by
    intro x hx
    obtain ⟨h1, h2⟩ := abs_sub_le_of_abs_le x t B ht.le hx
    exact ⟨to_float_abs_error _ _ h1, to_float_abs_error _ _ h2⟩
  obtain ⟨i, hi, hsi⟩ := (mem_line_vector p q s _).mp hs
  obtain ⟨bx1, bx2⟩ := between_of_sample p.x q.x _ i hi
  obtain ⟨by1, by2⟩ := between_of_sample p.y q.y _ i hi
  obtain ⟨bz1, bz2⟩ := between_of_sample p.z q.z _ i hi
  have hsx : s.x = p.x + (i : ℚ) * ((q.x - p.x) /
      (((ceil_norm_div (p.sub q) t : ℤ) : ℚ) - 1)) := by rw [hsi]; rfl
  have hsy : s.y = p.y + (i : ℚ) * ((q.y - p.y) /
      (((ceil_norm_div (p.sub q) t : ℤ) : ℚ) - 1)) := by rw [hsi]; rfl
  have hsz : s.z = p.z + (i : ℚ) * ((q.z - p.z) /
      (((ceil_norm_div (p.sub q) t : ℤ) : ℚ) - 1)) := by rw [hsi]; rfl
  rw [← hsx] at bx1 bx2
  rw [← hsy] at by1 by2
  rw [← hsz] at bz1 bz2
  -- the broad crop keeps `o`
  have hbroad : o ∈ segment_local_obs p q t obs := by
    unfold segment_local_obs
    rw [mem_pcl_ptr_box_crop]
    refine ⟨ho, ?_⟩
    simp only [Vector3d.add, Vector3d.sub, Vector3d.div]
    rw [broad_box_low, broad_box_high, broad_box_low, broad_box_high, broad_box_low,
      broad_box_high]
    obtain ⟨mx1, mx2⟩ := abs_min_le p.x q.x B hp.1 hq.1
    obtain ⟨my1, my2⟩ := abs_min_le p.y q.y B hp.2.1 hq.2.1
    obtain ⟨mz1, mz2⟩ := abs_min_le p.z q.z B hp.2.2 hq.2.2
    obtain ⟨ax1, ax2⟩ := axis_in_box _ _ s.x o.x r t e bx1 bx2 dx hme (err _ mx1).1 (err _ mx2).2
    obtain ⟨ay1, ay2⟩ := axis_in_box _ _ s.y o.y r t e by1 by2 dy hme (err _ my1).1 (err _ my2).2
    obtain ⟨az1, az2⟩ := axis_in_box _ _ s.z o.z r t e bz1 bz2 dz hme (err _ mz1).1 (err _ mz2).2
    exact ⟨ax1, ax2, ay1, ay2, az1, az2⟩
  -- the narrow crop keeps `o`
  have hnarrow : o ∈ pcl_ptr_box_crop (segment_local_obs p q t obs) s
      ⟨2 * t, 2 * t, 2 * t⟩ := by
    rw [mem_pcl_ptr_box_crop]
    refine ⟨hbroad, ?_⟩
    have h2t : 2 * t / 2 = t := by ring
    simp only [h2t]
    obtain ⟨ax1, ax2⟩ := axis_in_box s.x s.x s.x o.x r t e le_rfl le_rfl dx hme
      (err _ hsB.1).1 (err _ hsB.1).2
    obtain ⟨ay1, ay2⟩ := axis_in_box s.y s.y s.y o.y r t e le_rfl le_rfl dy hme
      (err _ hsB.2.1).1 (err _ hsB.2.1).2
    obtain ⟨az1, az2⟩ := axis_in_box s.z s.z s.z o.z r t e le_rfl le_rfl dz hme
      (err _ hsB.2.2).1 (err _ hsB.2.2).2
    exact ⟨ax1, ax2, ay1, ay2, az1, az2⟩
  -- the radius query finds `o`
  have herr : ∀ x : ℚ, |x| ≤ B → |to_float x - x| ≤ e := by
    intro x hx
    have h1 : |x| ≤ B + t := by linarith
    exact to_float_abs_error x _ h1
  have hw : |((narrow_to_float s).sub s).x| ≤ e ∧ |((narrow_to_float s).sub s).y| ≤ e ∧
      |((narrow_to_float s).sub s).z| ≤ e :=
    ⟨herr _ hsB.1, herr _ hsB.2.1, herr _ hsB.2.2⟩
  have hsum : (narrow_to_float s).sub o = (s.sub o).add ((narrow_to_float s).sub s) := by
    simp only [Vector3d.sub, Vector3d.add, Vector3d.mk.injEq]
    refine ⟨?_, ?_, ?_⟩ <;> ring
  have hdist := squaredNorm_add_le (s.sub o) ((narrow_to_float s).sub s) r e hr he0 hd hw
  rw [← hsum] at hdist
  have htf : |to_float t - t| ≤ e :=
    to_float_abs_error t _ (by rw [abs_of_pos ht]; linarith)
  rw [abs_le] at htf
  have hrad : r + 2 * e ≤ to_float t := by linarith [htf.1]
  have hrad0 : 0 ≤ r + 2 * e := by linarith
  have hfin : ((narrow_to_float s).sub o).squaredNorm ≤ to_float t * to_float t :=
    le_trans hdist (mul_le_mul hrad hrad hrad0 (le_trans hrad0 hrad))
  by_contra hnot
  have htrue : check_line_validity_with_pcl p q t obs = true := by simpa using hnot
  have := (check_line_validity_with_pcl_iff p q t obs).mp htrue s hs o hnarrow
  exact absurd hfin (not_le.mpr this)

/-- With a count of at least two the end point `q` is the last sample. -/
lemma end_mem_line_vector (p q : Vector3d) (n : ℤ) (hn : 2 ≤ n) : q ∈ line_vector p q n := by
  rw [mem_line_vector]
  refine ⟨(n - 1).toNat, by omega, ?_⟩
  have hcast : (((n - 1).toNat : ℕ) : ℚ) = (n : ℚ) - 1 := by
    have : (((n - 1).toNat : ℕ) : ℤ) = n - 1 := Int.toNat_of_nonneg (by omega)
    have h2 : ((((n - 1).toNat : ℕ) : ℤ) : ℚ) = ((n - 1 : ℤ) : ℚ) := by rw [this]
    push_cast at h2
    exact h2
  have hne : (n : ℚ) - 1 ≠ 0 := by
    have : (2 : ℚ) ≤ (n : ℚ) := by exact_mod_cast hn
    intro h0; linarith
  simp only [sample_at, hcast]
  cases q
  simp only [Vector3d.mk.injEq]
  refine ⟨?_, ?_, ?_⟩ <;> field_simp

/-- When the count is at least two the step node `q` is tested: an obstacle point that
the two crops keep and that lies within the narrowed radius of the narrowed `q` makes the
check fail. -/
lemma check_line_validity_with_pcl_false_of_near_end (p q o : Vector3d) (t : ℚ)
    (obs : List Vector3d) (hn : 2 ≤ ceil_norm_div (p.sub q) t)
    (ho : o ∈ pcl_ptr_box_crop (segment_local_obs p q t obs) q ⟨2 * t, 2 * t, 2 * t⟩)
    (hd : ((narrow_to_float q).sub o).squaredNorm ≤ to_float t * to_float t) :
    check_line_validity_with_pcl p q t obs = false := by
  by_contra hnot
  have htrue : check_line_validity_with_pcl p q t obs = true := by simpa using hnot
  have := (check_line_validity_with_pcl_iff p q t obs).mp htrue q
    (end_mem_line_vector p q _ hn) o ho
  exact absurd hd (not_le.mpr this)

/-- Every point of the closed segment lies within half the spacing of the samples from
some sample, for any count `n`. -/
lemma exists_sample_within_half_spacing (p q : Vector3d) (n : ℤ) (lam : ℚ)
    (h0 : 0 ≤ lam) (h1 : lam ≤ 1) :
    ∃ s ∈ line_vector p q n,
      (s.sub (point_on_line p q lam)).squaredNorm ≤ half_spacing_sq p q n := by
  have hd0 := squaredNorm_nonneg (p.sub q)
  unfold half_spacing_sq
  by_cases hn2 : 2 ≤ n
  · simp only [hn2, if_true]
    have hnq : (2 : ℚ) ≤ (n : ℚ) := by exact_mod_cast hn2
    set m : ℚ := (n : ℚ) - 1 with hm
    have hmpos : 0 < m := by linarith
    set x : ℚ := lam * m with hx
    have hx0 : 0 ≤ x := mul_nonneg h0 hmpos.le
    have hxm : x ≤ m := by nlinarith
    have hr := abs_sub_round x
    rw [abs_le] at hr
    have hr0 : 0 ≤ round x := by
      by_contra hneg
      have : round x ≤ -1 := by omega
      have : ((round x : ℤ) : ℚ) ≤ -1 := by exact_mod_cast this
      linarith [hr.2]
    have hrm : round x ≤ n - 1 := by
      by_contra hbig
      have : n ≤ round x := by omega
      have : ((n : ℤ) : ℚ) ≤ ((round x : ℤ) : ℚ) := by exact_mod_cast this
      linarith [hr.1]
    set i : ℕ := (round x).toNat with hi
    have hicast : ((i : ℕ) : ℚ) = ((round x : ℤ) : ℚ) := by
      have : ((i : ℕ) : ℤ) = round x := Int.toNat_of_nonneg hr0
      exact_mod_cast this
    have hilt : i < (n - 1).toNat + 1 := by omega
    refine ⟨sample_at p q n i, (mem_line_vector p q _ _).mpr ⟨i, hilt, rfl⟩, ?_⟩
    rw [squaredNorm_sample_sub_point]
    rw [← hm, hicast]
    set e : ℚ := ((round x : ℤ) : ℚ) - x with he
    have he2 : e ^ 2 ≤ 1 / 4 := by
      have h1' : -(1 / 2 : ℚ) ≤ e := by rw [he]; linarith [hr.2]
      have h2' : e ≤ 1 / 2 := by rw [he]; linarith [hr.1]
      nlinarith
    have hfrac : ((round x : ℤ) : ℚ) / m - lam = e / m := by
      rw [he, hx]; field_simp; ring
    rw [hfrac, div_pow]
    have hm2 : 0 < m ^ 2 := by positivity
    rw [div_mul_eq_mul_div, div_le_div_iff₀ hm2 (by positivity)]
    have hle : e ^ 2 * (p.sub q).squaredNorm ≤ 1 / 4 * (p.sub q).squaredNorm :=
      mul_le_mul_of_nonneg_right he2 hd0
    calc e ^ 2 * (p.sub q).squaredNorm * (4 * m ^ 2)
        ≤ 1 / 4 * (p.sub q).squaredNorm * (4 * m ^ 2) :=
          mul_le_mul_of_nonneg_right hle (by positivity)
      _ = (p.sub q).squaredNorm * m ^ 2 := by ring
  · simp only [hn2, if_false]
    refine ⟨p, start_mem_line_vector p q _, ?_⟩
    have hp : p = sample_at p q n 0 := by simp [sample_at]
    have hsq := squaredNorm_sample_sub_point p q n 0 lam
    rw [← hp] at hsq
    rw [hsq]
    simp only [Nat.cast_zero, zero_div, zero_sub, even_two, Even.neg_pow]
    have hlam : lam ^ 2 ≤ 1 := by nlinarith
    calc lam ^ 2 * (p.sub q).squaredNorm ≤ 1 * (p.sub q).squaredNorm :=
          mul_le_mul_of_nonneg_right hlam hd0
      _ = (p.sub q).squaredNorm := one_mul _

/-- From a count of three on, half the spacing of the samples is at most three quarters
of the threshold. -/
lemma half_spacing_sq_le_of_three_le (p q : Vector3d) (t : ℚ) (ht : 0 < t)
    (hn : 3 ≤ ceil_norm_div (p.sub q) t) :
    half_spacing_sq p q (ceil_norm_div (p.sub q) t) ≤ (3 / 4 * t) * (3 / 4 * t) := by
  have hd := squaredNorm_le_count_sq (p.sub q) t ht
  rw [ceil_norm_div_pos_threshold _ t ht] at hn ⊢
  set n : ℕ := ceil_sqrt ⌈(p.sub q).squaredNorm / (t * t)⌉₊ with hndef
  have hn3 : (3 : ℚ) ≤ (n : ℚ) := by exact_mod_cast hn
  unfold half_spacing_sq
  have h2 : (2 : ℤ) ≤ (n : ℤ) := by omega
  simp only [h2, if_true, Int.cast_natCast]
  have hm : 0 < (n : ℚ) - 1 := by linarith
  rw [div_le_iff₀ (by positivity)]
  have htt : 0 ≤ t * t := mul_self_nonneg t
  have hnm : (n : ℚ) ^ 2 ≤ 9 / 4 * ((n : ℚ) - 1) ^ 2 := by nlinarith
  calc (p.sub q).squaredNorm ≤ (n : ℚ) ^ 2 * (t * t) := hd
    _ ≤ 9 / 4 * ((n : ℚ) - 1) ^ 2 * (t * t) := mul_le_mul_of_nonneg_right hnm htt
    _ = 3 / 4 * t * (3 / 4 * t) * (4 * ((n : ℚ) - 1) ^ 2) := by ring

/-- When the segment is longer than twice the threshold, so that the count is at least
three, an obstacle point on the closed segment makes the check fail as soon as the margin
`float_slack` is at most a quarter of the threshold. -/
lemma check_line_validity_with_pcl_false_of_on_long_segment (p q o : Vector3d) (t lam B : ℚ)
    (obs : List Vector3d) (ht : 0 < t) (ho : o ∈ obs) (h0 : 0 ≤ lam) (h1 : lam ≤ 1)
    (hseg : o = point_on_line p q lam) (hp : coordinates_within B p)
    (hq : coordinates_within B q) (hn : 3 ≤ ceil_norm_div (p.sub q) t)
    (hm : float_slack B t ≤ t / 4) :
    check_line_validity_with_pcl p q t obs = false := by
  obtain ⟨s, hs, hd⟩ := exists_sample_within_half_spacing p q (ceil_norm_div (p.sub q) t)
    lam h0 h1
  rw [← hseg] at hd
  exact check_line_validity_with_pcl_false_of_near_sample p q s o t (3 / 4 * t) B obs ht
    (by positivity) hp hq hs ho (le_trans hd (half_spacing_sq_le_of_three_le p q t ht hn))
    (by linarith)

/-- The narrowing can also turn an acceptance into a rejection: at `p = q = (0.1, 0, 0)`
(the nearest `double`), threshold `10⁻⁹` and the obstacle `(0.1, 0, 0)` (the nearest
`float`), the obstacle is farther from `p` than the threshold, but `p` narrows to the
obstacle itself and the segment is rejected. -/
lemma check_line_validity_rejects_beyond_threshold :
    check_line_validity_with_pcl ⟨3602879701896397 / 2 ^ 55, 0, 0⟩
        ⟨3602879701896397 / 2 ^ 55, 0, 0⟩ (1 / 1000000000) [⟨13421773 / 2 ^ 27, 0, 0⟩]
        = false ∧
      ¬ (((Vector3d.mk (3602879701896397 / 2 ^ 55) 0 0).sub
          ⟨13421773 / 2 ^ 27, 0, 0⟩).squaredNorm
        ≤ (1 / 1000000000 : ℚ) * (1 / 1000000000)) := by
  decide!

/-- C8, failing input: with nearest node `(0,0,0)`, step node `(1,0,0)` and threshold
`1` the count is `1`, so only the nearest node is sampled; the obstacle `(3/2,0,0)` lies
at distance `1/2` from the step node and the segment is accepted all the same. -/
theorem check_line_validity_misses_obstacle_near_step_node :
    check_line_validity_with_pcl ⟨0, 0, 0⟩ ⟨1, 0, 0⟩ 1 [⟨3 / 2, 0, 0⟩] = true ∧
      ((Vector3d.mk 1 0 0).sub ⟨3 / 2, 0, 0⟩).squaredNorm ≤ 1 * 1 ∧
      line_vector ⟨0, 0, 0⟩ ⟨1, 0, 0⟩ (ceil_norm_div ((Vector3d.mk 0 0 0).sub ⟨1, 0, 0⟩) 1)
        = [⟨0, 0, 0⟩] := by
  decide!

/-! ## Concrete scenarios -/

lemma scenario_reachable (obs : List Vector3d) : Reachable Trig.zero_angle (scenario obs) :=
  Reachable.node_characteristics _ _ _ _ _ _
    (Reachable.map_characteristics _ _ _ _
      (Reachable.boundaries _ _ _ _
        (Reachable.start_end _ _ _ (Reachable.constructed zero_state))))

lemma run_loop_append (T : Trig) (t0 : ℚ) (rest : List (Draw × ℚ)) :
    ∀ (pre : List (Draw × ℚ)) (s s0 : State), grow_steps T t0 pre s = some s0 →
      run_loop T t0 (pre ++ rest) s = run_loop T t0 rest s0 := by
  intro pre
  induction pre with
  | nil =>
    intro s s0 h
    simp only [grow_steps, Option.some.injEq] at h
    subst h; rfl
  | cons hd pre ih =>
    intro s s0 h
    obtain ⟨d, now⟩ := hd
    simp only [grow_steps] at h
    split_ifs at h with hr
    split at h
    · exact absurd h (by simp)
    rename_i s1 hstep
    split_ifs at h with hto
    rw [List.cons_append, run_loop]
    simp only [hr, Bool.false_eq_true, if_false, hstep, hto]
    exact ih s1 s0 h

lemma grow_steps_reachable (T : Trig) (t0 : ℚ) :
    ∀ (pre : List (Draw × ℚ)) (s s0 : State), Reachable T s → s.initialized = 4 →
      grow_steps T t0 pre s = some s0 → Reachable T s0 ∧ s0.initialized = 4 := by
  intro pre
  induction pre with
  | nil =>
    intro s s0 hs h4 h
    simp only [grow_steps, Option.some.injEq] at h
    subst h; exact ⟨hs, h4⟩
  | cons hd pre ih =>
    intro s s0 hs h4 h
    obtain ⟨d, now⟩ := hd
    simp only [grow_steps] at h
    split_ifs at h with hr
    split at h
    · exact absurd h (by simp)
    rename_i s1 hstep
    split_ifs at h with hto
    have hnr : s.reached = false := by simpa using hr
    have hcfg := (search_single_node_frame T s s1 d hstep).1
    exact ih s1 s0 (Reachable.growth s s1 d hs h4 hnr hstep)
      (by rw [hcfg.2.2.2.1]; exact h4) h

lemma chain'_getElem? {α : Type} {R : α → α → Prop} : ∀ {l : List α}, List.Chain' R l →
    ∀ (i : ℕ) (a b : α), l[i]? = some a → l[i + 1]? = some b → R a b
  | [], _, i, a, b, ha, _ => by simp at ha
  | [x], _, i, a, b, _, hb => by simp at hb
  | x :: y :: l, h, 0, a, b, ha, hb => by
    simp only [List.getElem?_cons_zero, Option.some.injEq, zero_add,
      List.getElem?_cons_succ] at ha hb
    subst ha; subst hb
    exact (List.chain'_cons.mp h).1
  | x :: y :: l, h, i + 1, a, b, ha, hb => by
    rw [List.getElem?_cons_succ] at ha hb
    exact chain'_getElem? (List.chain'_cons.mp h).2 i a b ha hb

/-- In a reachable state with `initialized = 4` that has reached the goal,
`path_extraction` returns the path along the parent chain of the goal. -/
lemma path_extraction_of_reached (T : Trig) (s : State) (hs : Reachable T s)
    (h4 : s.initialized = 4) (hr : s.reached = true) :
    ∃ anc, ParentChain s s.end_node anc ∧ 2 ≤ anc.length ∧
      List.Chain' (EdgeChecked s) (s.end_node :: anc) ∧
      path_extraction s (s.heap.length + 1) =
        some (((s.end_node :: anc).dropLast).map Node.position) := by
  obtain ⟨anc, hch, h2, hlen, hchk⟩ := (hs.treeInv h4).chain_of_goal hr
  refine ⟨anc, hch, h2, hchk, path_extraction_chain s anc _ hch ?_ hlen⟩
  intro h0; rw [h0] at h2; simp at h2

lemma node_stepping_bounds (s : State) (node random_vector : Vector3d) (random_value : ℚ)
    (hx : 0 ≤ s.map_size.x) (hy : 0 ≤ s.map_size.y) (hz : s._min_height ≤ s._max_height) :
    -s.map_size.x / 2 ≤ (node_stepping s node random_vector random_value).x ∧
      (node_stepping s node random_vector random_value).x ≤ s.map_size.x / 2 ∧
      -s.map_size.y / 2 ≤ (node_stepping s node random_vector random_value).y ∧
      (node_stepping s node random_vector random_value).y ≤ s.map_size.y / 2 ∧
      s._min_height ≤ (node_stepping s node random_vector random_value).z ∧
      (node_stepping s node random_vector random_value).z ≤ s._max_height := by
  simp only [node_stepping]
  refine ⟨le_min (le_max_right _ _) (by linarith), min_le_right _ _,
    le_min (le_max_right _ _) (by linarith), min_le_right _ _,
    le_min (le_max_right _ _) hz, min_le_right _ _⟩

/-! ## Results on the planner -/

/-- C1, failing input: `initialize_boundaries` is never called and
`initialize_node_characteristics` is called twice, so the counter is `4`;
`run_rrt_module` performs a growth step, which inserts the node `(3/5, 0, 0)` and
attaches the goal, and returns a path of two points. -/
theorem run_rrt_module_runs_with_a_group_missing :
    scenario_without_boundaries.initialized = 4 ∧
      scenario_without_boundaries.heap.length = 0 ∧
      scenario_without_boundaries.reached = false ∧
      (run_rrt_module Trig.zero_angle scenario_without_boundaries 0 [(draw_x, 0)]).map
        Prod.snd = some [⟨1, 0, 0⟩, ⟨3 / 5, 0, 0⟩] ∧
      (run_rrt_module Trig.zero_angle scenario_without_boundaries 0 [(draw_x, 0)]).map
        (fun r => (r.1.heap.length, r.1.reached)) = some (1, true) := by
  decide!

/-- C2, counterexample: on the fully configured planner `scenario []` the first growth
step attaches the goal, the clock then reads `6` with a timeout of `5`, and
`run_rrt_module` returns the empty sequence. -/
theorem run_rrt_module_empty_although_goal_attached :
    (scenario []).initialized = 4 ∧
      search_single_node Trig.zero_angle (scenario []) draw_x = some (scenario_final []) ∧
      (scenario_final []).reached = true ∧
      run_rrt_module Trig.zero_angle (scenario []) 0 [(draw_x, 6)] =
        some (scenario_final [], []) := by
  decide!

/-- C2, amended: on a fully configured planner, when a growth step of the run attaches
the goal node and the clock reading taken right after that step does not exceed the
timeout, `run_rrt_module` returns a non-empty path that starts with the goal position;
when that reading exceeds the timeout it returns the empty sequence. In every run the
empty sequence is returned only when the loop ended on the timeout. -/
theorem run_rrt_module_after_goal_attached (T : Trig) (s s0 s1 : State) (t0 now : ℚ)
    (pre rest : List (Draw × ℚ)) (d : Draw) (hs : Reachable T s) (h4 : s.initialized = 4)
    (hpre : grow_steps T t0 pre s = some s0) (hnr : s0.reached = false)
    (hstep : search_single_node T s0 d = some s1) (hreach : s1.reached = true) :
    (now - t0 ≤ s1.timeout →
        ∃ path, run_rrt_module T s t0 (pre ++ (d, now) :: rest) = some (s1, path) ∧
          path ≠ [] ∧ path.head? = some s1.end_node.position) ∧
      (s1.timeout < now - t0 →
        run_rrt_module T s t0 (pre ++ (d, now) :: rest) = some (s1, [])) ∧
      ∀ trace s', run_rrt_module T s t0 trace = some (s', []) →
        run_loop T t0 trace s = some (s', true) := by
  obtain ⟨hs0, h40⟩ := grow_steps_reachable T t0 pre s s0 hs h4 hpre
  have hs1 : Reachable T s1 := Reachable.growth s0 s1 d hs0 h40 hnr hstep
  have h41 : s1.initialized = 4 := by
    rw [(search_single_node_frame T s0 s1 d hstep).1.2.2.2.1]; exact h40
  have hloop : run_loop T t0 (pre ++ (d, now) :: rest) s =
      if now - t0 > s1.timeout then some (s1, true) else some (s1, false) := by
    rw [run_loop_append T t0 _ pre s s0 hpre, run_loop]
    simp only [hnr, Bool.false_eq_true, if_false, hstep]
    split_ifs with hto
    · rfl
    · cases rest <;> simp [run_loop, hreach]
  obtain ⟨anc, _, h2, _, hpath⟩ := path_extraction_of_reached T s1 hs1 h41 hreach
  refine ⟨?_, ?_, ?_⟩
  · intro hle
    refine ⟨((s1.end_node :: anc).dropLast).map Node.position, ?_, ?_, ?_⟩
    · unfold run_rrt_module
      simp only [h4, ne_eq, not_true_eq_false, if_false, hloop, not_lt.mpr hle,
        Bool.false_eq_true, hpath]
    · cases anc with
      | nil => simp at h2
      | cons a rest' => simp [List.dropLast]
    · cases anc with
      | nil => simp at h2
      | cons a rest' => simp [List.dropLast]
  · intro hlt
    unfold run_rrt_module
    simp only [h4, ne_eq, not_true_eq_false, if_false, hloop, gt_iff_lt, hlt, if_true]
  · intro trace s' hrun
    unfold run_rrt_module at hrun
    simp only [h4, ne_eq, not_true_eq_false, if_false] at hrun
    split at hrun
    · exact absurd hrun (by simp)
    rename_i s2 error hl
    cases error with
    | true =>
      simp only [if_true, Option.some.injEq, Prod.mk.injEq, and_true] at hrun
      rw [hl, hrun]
    | false =>
      simp only [Bool.false_eq_true, if_false] at hrun
      obtain ⟨hs2, hcfg, _, hr2⟩ := run_loop_spec T t0 trace s s2 false hs h4 hl
      have h42 : s2.initialized = 4 := by rw [hcfg.2.2.2.1]; exact h4
      obtain ⟨anc2, _, h22, _, hpath2⟩ := path_extraction_of_reached T s2 hs2 h42 (hr2 rfl)
      rw [hpath2] at hrun
      simp only [Option.some.injEq, Prod.mk.injEq] at hrun
      cases anc2 with
      | nil => simp at h22
      | cons a rest' => simp [List.dropLast] at hrun

/-- C2, amended, at a concrete run: in `scenario []` the first growth step attaches the
goal and the clock reads `1` afterwards, within the timeout `5`. -/
theorem run_rrt_module_after_goal_attached_witness :
    ((1 : ℚ) - 0 ≤ (scenario_final []).timeout →
        ∃ path, run_rrt_module Trig.zero_angle (scenario []) 0 ([] ++ (draw_x, 1) :: []) =
            some (scenario_final [], path) ∧
          path ≠ [] ∧ path.head? = some (scenario_final []).end_node.position) ∧
      ((scenario_final []).timeout < (1 : ℚ) - 0 →
        run_rrt_module Trig.zero_angle (scenario []) 0 ([] ++ (draw_x, 1) :: []) =
          some (scenario_final [], [])) ∧
      ∀ trace s', run_rrt_module Trig.zero_angle (scenario []) 0 trace = some (s', []) →
        run_loop Trig.zero_angle 0 trace (scenario []) = some (s', true) :=
  run_rrt_module_after_goal_attached Trig.zero_angle (scenario []) (scenario [])
    (scenario_final []) 0 1 [] [] draw_x (scenario_reachable []) (by decide!) (by decide!)
    (by decide!) (by decide!) (by decide!)

/-- C3: in a tree where the goal node is attached below a step node (a heap object), the
step nodes all have a parent, and `anc` is the parent chain from the goal node up to the
node without a parent (the root), `path_extraction` returns the positions of the goal
node and of its ancestors in that order without the root: the first element is the goal
position, and the length is the number of edges from the root to the goal, at least 2. -/
theorem path_extraction_goal_first (s : State) (anc : List Node) (k fuel : ℕ)
    (hattach : s.end_node.parent = some (NodePtr.heap k))
    (hstep : ∀ (j : ℕ) (nd : Node), s.heap[j]? = some nd → nd.parent ≠ none)
    (hchain : ParentChain s s.end_node anc) (hfuel : anc.length ≤ fuel) :
    path_extraction s fuel = some (((s.end_node :: anc).dropLast).map Node.position) ∧
      (((s.end_node :: anc).dropLast).map Node.position).head? =
        some s.end_node.position ∧
      (((s.end_node :: anc).dropLast).map Node.position).length = anc.length ∧
      2 ≤ anc.length := by
  cases anc with
  | nil =>
    simp only [ParentChain] at hchain
    rw [hchain] at hattach
    exact absurd hattach (by simp)
  | cons up rest =>
    refine ⟨path_extraction_chain s (up :: rest) fuel hchain (by simp) hfuel, by simp,
      by simp, ?_⟩
    obtain ⟨⟨p, hp, hdp⟩, hup⟩ := hchain
    rw [hattach] at hp
    simp only [Option.some.injEq] at hp
    subst hp
    cases rest with
    | nil =>
      simp only [ParentChain] at hup
      exact absurd hup (hstep k up hdp)
    | cons m rest' => simp

/-- C3 at the final state of the run of `scenario []`: the chain from the goal is the
step node `(3/5, 0, 0)` and then the start node; the path is the goal and the step
node. -/
theorem path_extraction_goal_first_witness :
    path_extraction (scenario_final []) 2 =
        some ((((scenario_final []).end_node ::
          [⟨[], some NodePtr.start_node, ⟨3 / 5, 0, 0⟩⟩,
            (scenario_final []).start_node]).dropLast).map Node.position) ∧
      ((((scenario_final []).end_node ::
          [⟨[], some NodePtr.start_node, ⟨3 / 5, 0, 0⟩⟩,
            (scenario_final []).start_node]).dropLast).map Node.position).head? =
        some (scenario_final []).end_node.position ∧
      ((((scenario_final []).end_node ::
          [⟨[], some NodePtr.start_node, ⟨3 / 5, 0, 0⟩⟩,
            (scenario_final []).start_node]).dropLast).map Node.position).length =
        [(⟨[], some NodePtr.start_node, ⟨3 / 5, 0, 0⟩⟩ : Node),
          (scenario_final []).start_node].length ∧
      2 ≤ [(⟨[], some NodePtr.start_node, ⟨3 / 5, 0, 0⟩⟩ : Node),
          (scenario_final []).start_node].length :=
  path_extraction_goal_first (scenario_final [])
    [⟨[], some NodePtr.start_node, ⟨3 / 5, 0, 0⟩⟩, (scenario_final []).start_node] 0 2 rfl
    (by
      intro j nd h
      cases j with
      | zero =>
        simp only [scenario_final, List.getElem?_cons_zero, Option.some.injEq] at h
        subst h; simp
      | succ j => simp [scenario_final] at h)
    ⟨⟨NodePtr.heap 0, rfl, rfl⟩, ⟨NodePtr.start_node, rfl, rfl⟩, rfl⟩ (by simp)

/-- C9, counterexample: in `scenario [(17/10, 0, 0)]` one growth step inserts the node
`(3/5, 0, 0)` and attaches the goal `(1, 0, 0)`; the returned path is the goal followed by
that node, and the collision check of this pair taken in path order fails. -/
theorem run_rrt_module_path_pair_fails_check :
    run_rrt_module Trig.zero_angle (scenario [⟨17 / 10, 0, 0⟩]) 0 [(draw_x, 0)] =
        some (scenario_final [⟨17 / 10, 0, 0⟩], [⟨1, 0, 0⟩, ⟨3 / 5, 0, 0⟩]) ∧
      check_line_validity_with_pcl ⟨1, 0, 0⟩ ⟨3 / 5, 0, 0⟩
        (scenario_final [⟨17 / 10, 0, 0⟩]).obs_threshold
        (scenario_final [⟨17 / 10, 0, 0⟩]).obs = false := by
  decide!

/-- C9, amended: for every path returned by `run_rrt_module`, every consecutive pair
passes the collision check in the direction in which the growth step checked it, from
the later point of the path (the parent) to the earlier one (the child), with the
clearance threshold and the obstacle set of the run, which the run does not change. -/
theorem run_rrt_module_path_edges_checked (T : Trig) (s s' : State) (t0 : ℚ)
    (trace : List (Draw × ℚ)) (path : List Vector3d) (hs : Reachable T s)
    (hrun : run_rrt_module T s t0 trace = some (s', path)) :
    s'.obs = s.obs ∧ s'.obs_threshold = s.obs_threshold ∧
      ∀ (i : ℕ) (a b : Vector3d), path[i]? = some a → path[i + 1]? = some b →
        check_line_validity_with_pcl b a s.obs_threshold s.obs = true := by
  unfold run_rrt_module at hrun
  split_ifs at hrun with h4
  · simp only [Option.some.injEq, Prod.mk.injEq] at hrun
    obtain ⟨rfl, rfl⟩ := hrun
    exact ⟨rfl, rfl, fun i a b ha _ => by simp at ha⟩
  · have h4' : s.initialized = 4 := by simpa using h4
    split at hrun
    · exact absurd hrun (by simp)
    rename_i s2 error hl
    obtain ⟨hs2, hcfg, _, hr2⟩ := run_loop_spec T t0 trace s s2 error hs h4' hl
    have hobs : s2.obs = s.obs := hcfg.1
    have hthr : s2.obs_threshold = s.obs_threshold := hcfg.2.2.2.2.1
    cases error with
    | true =>
      simp only [if_true, Option.some.injEq, Prod.mk.injEq] at hrun
      obtain ⟨rfl, rfl⟩ := hrun
      exact ⟨hobs, hthr, fun i a b ha _ => by simp at ha⟩
    | false =>
      simp only [Bool.false_eq_true, if_false] at hrun
      have h42 : s2.initialized = 4 := by rw [hcfg.2.2.2.1]; exact h4'
      obtain ⟨anc, _, _, hchk, hpath⟩ := path_extraction_of_reached T s2 hs2 h42 (hr2 rfl)
      rw [hpath] at hrun
      simp only [Option.some.injEq, Prod.mk.injEq] at hrun
      obtain ⟨rfl, rfl⟩ := hrun
      refine ⟨hobs, hthr, ?_⟩
      have hpre : List.Chain' (EdgeChecked s2) ((s2.end_node :: anc).dropLast) :=
        hchk.prefix (List.dropLast_prefix _)
      have hmap : List.Chain'
          (fun a b => check_line_validity_with_pcl b a s.obs_threshold s.obs = true)
          (((s2.end_node :: anc).dropLast).map Node.position) := by
        rw [List.chain'_map]
        refine hpre.imp ?_
        intro child parent h
        unfold EdgeChecked at h
        rw [hobs, hthr] at h
        exact h
      intro i a b ha hb
      exact chain'_getElem? hmap i a b ha hb

/-- C9, amended, at the run of the counterexample: the pair passes the check from the
inserted node `(3/5, 0, 0)` to the goal `(1, 0, 0)`. -/
theorem run_rrt_module_path_edges_checked_witness :
    (scenario_final [⟨17 / 10, 0, 0⟩]).obs = (scenario [⟨17 / 10, 0, 0⟩]).obs ∧
      (scenario_final [⟨17 / 10, 0, 0⟩]).obs_threshold =
        (scenario [⟨17 / 10, 0, 0⟩]).obs_threshold ∧
      ∀ (i : ℕ) (a b : Vector3d),
        ([⟨1, 0, 0⟩, ⟨3 / 5, 0, 0⟩] : List Vector3d)[i]? = some a →
        ([⟨1, 0, 0⟩, ⟨3 / 5, 0, 0⟩] : List Vector3d)[i + 1]? = some b →
        check_line_validity_with_pcl b a (scenario [⟨17 / 10, 0, 0⟩]).obs_threshold
          (scenario [⟨17 / 10, 0, 0⟩]).obs = true :=
  run_rrt_module_path_edges_checked Trig.zero_angle (scenario [⟨17 / 10, 0, 0⟩])
    (scenario_final [⟨17 / 10, 0, 0⟩]) 0 [(draw_x, 0)] [⟨1, 0, 0⟩, ⟨3 / 5, 0, 0⟩]
    (scenario_reachable _) (by decide!)

/-- C10: when `map_size.x ≥ 0`, `map_size.y ≥ 0` and `_min_height ≤ _max_height`, every
node that a growth step creates and inserts has `x` and `y` within half the map size
around zero and `z` within the height limits, whatever the selected node, the direction
vector and the step factor are; the member `origin` does not occur in the bounds. -/
theorem search_single_node_inserted_within_bounds (T : Trig) (s s' : State) (d : Draw)
    (hx : 0 ≤ s.map_size.x) (hy : 0 ≤ s.map_size.y) (hz : s._min_height ≤ s._max_height)
    (h : search_single_node T s d = some s') :
    ∀ (k : ℕ) (nd : Node), s.heap.length ≤ k → s'.heap[k]? = some nd →
      -s.map_size.x / 2 ≤ nd.position.x ∧ nd.position.x ≤ s.map_size.x / 2 ∧
        -s.map_size.y / 2 ≤ nd.position.y ∧ nd.position.y ≤ s.map_size.y / 2 ∧
        s._min_height ≤ nd.position.z ∧ nd.position.z ≤ s._max_height := by
  intro k nd hk hnd
  obtain ⟨_, sel, sel_node, _, _, _, _, _, hcase⟩ := search_single_node_spec T s s' d h
  rcases hcase with ⟨rfl, _⟩ | ⟨_, _, hins⟩
  · rw [List.getElem?_eq_none hk] at hnd
    exact absurd hnd (by simp)
  · have hk' : k < s'.heap.length := by
      by_contra hc
      rw [List.getElem?_eq_none (by omega)] at hnd
      exact absurd hnd (by simp)
    rw [hins.heap_length] at hk'
    have hkeq : k = s.heap.length := by omega
    subst hkeq
    have hl := @link_of_deref s' (NodePtr.heap s.heap.length) nd hnd
    rw [hins.link_new] at hl
    simp only [Option.some.injEq, Prod.mk.injEq] at hl
    rw [← hl.2]
    exact node_stepping_bounds s sel_node.position d.random_vector d.random_value hx hy hz

/-- C10 at the growth step of `scenario []` with the draws `draw_x`: the inserted node
`(3/5, 0, 0)` lies within the map `30 × 30` and the heights `[-10, 10]`. -/
theorem search_single_node_inserted_within_bounds_witness :
    -(scenario []).map_size.x / 2 ≤ (3 / 5 : ℚ) ∧
      (3 / 5 : ℚ) ≤ (scenario []).map_size.x / 2 ∧
      -(scenario []).map_size.y / 2 ≤ (0 : ℚ) ∧
      (0 : ℚ) ≤ (scenario []).map_size.y / 2 ∧
      (scenario [])._min_height ≤ (0 : ℚ) ∧
      (0 : ℚ) ≤ (scenario [])._max_height :=
  search_single_node_inserted_within_bounds Trig.zero_angle (scenario []) (scenario_final [])
    draw_x (by decide!) (by decide!) (by decide!) (by decide!) 0
    ⟨[], some NodePtr.start_node, ⟨3 / 5, 0, 0⟩⟩ (by decide!) (by decide!)

/-! ## Results on `linspace` and `transform_vector` -/

lemma getElem?_map_range {α : Type} (f : ℕ → α) (m i : ℕ) (hi : i < m) :
    ((List.range m).map f)[i]? = some (f i) := by
  simp [List.getElem?_map, List.getElem?_range hi]

/-- C12: for an integer count `n ≥ 2`, `linspace(min, max, n)` returns exactly `n` values,
the `i`-th being `min + i * (max - min) / (n - 1)`; the first is `min` and the last is
`max`. For `n = 1` the result is `[min]`. -/
theorem linspace_values (min max : ℚ) (n : ℕ) (hn : 2 ≤ n) :
    (linspace min max (n : ℤ)).length = n ∧
      (∀ i : ℕ, i < n →
        (linspace min max (n : ℤ))[i]? = some (min + (i : ℚ) * (max - min) / ((n : ℚ) - 1))) ∧
      (linspace min max (n : ℤ))[0]? = some min ∧
      (linspace min max (n : ℤ))[n - 1]? = some max ∧
      linspace min max 1 = [min] := by
  have hm : ((n : ℤ) - 1).toNat + 1 = n := by omega
  have hne : (n : ℚ) - 1 ≠ 0 := by
    have : (2 : ℚ) ≤ (n : ℚ) := by exact_mod_cast hn
    intro h0; linarith
  have hval : ∀ i : ℕ, i < n →
      (linspace min max (n : ℤ))[i]? =
        some (min + (i : ℚ) * (max - min) / ((n : ℚ) - 1)) := by
    intro i hi
    rw [linspace_eq, hm, getElem?_map_range _ n i hi]
    simp only [Int.cast_natCast, Option.some.injEq]
    ring
  refine ⟨?_, hval, ?_, ?_, ?_⟩
  · rw [linspace_eq, hm]; simp
  · rw [hval 0 (by omega)]; simp
  · rw [hval (n - 1) (by omega)]
    have hcast : ((n - 1 : ℕ) : ℚ) = (n : ℚ) - 1 := by
      rw [Nat.cast_sub (by omega)]; simp
    rw [hcast]
    simp only [Option.some.injEq]
    field_simp
  · simp [linspace, linspace_loop]

/-- C12 at `linspace(0, 10, 3)`, which is `[0, 5, 10]`. -/
theorem linspace_values_witness :
    (linspace 0 10 ((3 : ℕ) : ℤ)).length = 3 ∧
      (∀ i : ℕ, i < 3 →
        (linspace 0 10 ((3 : ℕ) : ℤ))[i]? =
          some (0 + (i : ℚ) * (10 - 0) / (((3 : ℕ) : ℚ) - 1))) ∧
      (linspace 0 10 ((3 : ℕ) : ℤ))[0]? = some 0 ∧
      (linspace 0 10 ((3 : ℕ) : ℤ))[3 - 1]? = some 10 ∧
      linspace 0 10 1 = [0] :=
  linspace_values 0 10 3 (by decide)

lemma transform_vector_backward (T : Trig) (p rpy t : Vector3d) :
    transform_vector T p rpy t "backward" = some ((rotate (rpy_quaternion T rpy) p).add t) := by
  simp [transform_vector]

lemma transform_vector_forward (T : Trig) (p rpy t : Vector3d) :
    transform_vector T p rpy t "forward" = some (rotate (rpy_quaternion T rpy) (p.sub t)) := by
  simp [transform_vector]

lemma rotate_of_zero_angles (T : Trig) (h0c : T.cos_half 0 = 1) (h0s : T.sin_half 0 = 0)
    (p : Vector3d) : rotate (rpy_quaternion T ⟨0, 0, 0⟩) p = p := by
  simp [rotate, rpy_quaternion, Quaterniond.mul, Quaterniond.inverse, Quaterniond.squaredNorm,
    Quaterniond.vec, h0c, h0s]

/-- C13: mapping a point to the world frame ("backward") and the result to the local
frame ("forward") with the same angles and translation applies the rotation twice. With
the exact values of `cos` and `sin` at half of `0` and `90` degrees (`cos 45° = sin 45°`,
not zero), the angles `(0, 0, 90)` and no translation send `(1, 0, 0)` to `(-1, 0, 0)`,
so the two modes are not inverse to each other; with the angles `(0, 0, 0)` they are. -/
theorem transform_vector_forward_after_backward (T : Trig) (p rpy t : Vector3d)
    (h0c : T.cos_half 0 = 1) (h0s : T.sin_half 0 = 0)
    (h90 : T.cos_half 90 = T.sin_half 90) (h90ne : T.cos_half 90 ≠ 0) :
    (transform_vector T p rpy t "backward").bind
        (fun w => transform_vector T w rpy t "forward") =
        some (rotate (rpy_quaternion T rpy) (rotate (rpy_quaternion T rpy) p)) ∧
      (transform_vector T ⟨1, 0, 0⟩ ⟨0, 0, 90⟩ ⟨0, 0, 0⟩ "backward").bind
        (fun w => transform_vector T w ⟨0, 0, 90⟩ ⟨0, 0, 0⟩ "forward") =
        some ⟨-1, 0, 0⟩ ∧
      (transform_vector T p ⟨0, 0, 0⟩ t "backward").bind
        (fun w => transform_vector T w ⟨0, 0, 0⟩ t "forward") = some p ∧
      (transform_vector T p ⟨0, 0, 0⟩ t "forward").bind
        (fun w => transform_vector T w ⟨0, 0, 0⟩ t "backward") = some p := by
  have hgen : ∀ (p rpy t : Vector3d),
      (transform_vector T p rpy t "backward").bind
        (fun w => transform_vector T w rpy t "forward") =
        some (rotate (rpy_quaternion T rpy) (rotate (rpy_quaternion T rpy) p)) := by
    intro p rpy t
    rw [transform_vector_backward, Option.some_bind, transform_vector_forward]
    congr 2
    simp [Vector3d.add, Vector3d.sub]
  refine ⟨hgen p rpy t, ?_, ?_, ?_⟩
  · rw [hgen]
    have hc2 : T.sin_half 90 * T.sin_half 90 + T.sin_half 90 * T.sin_half 90 ≠ 0 := by
      rw [← h90]
      have : 0 < T.cos_half 90 * T.cos_half 90 := mul_self_pos.mpr h90ne
      intro h; linarith
    have hpos : 0 < T.sin_half 90 * T.sin_half 90 + T.sin_half 90 * T.sin_half 90 := by
      rw [← h90]
      have : 0 < T.cos_half 90 * T.cos_half 90 := mul_self_pos.mpr h90ne
      linarith
    simp only [rotate, rpy_quaternion, Quaterniond.mul, Quaterniond.inverse,
      Quaterniond.squaredNorm, Quaterniond.vec, h0c, h0s, h90]
    simp only [mul_zero, zero_mul, sub_zero, add_zero, zero_add, mul_one, one_mul, hpos,
      if_true, neg_zero, zero_div, zero_sub]
    simp only [Option.some.injEq, Vector3d.mk.injEq]
    refine ⟨?_, ?_, ?_⟩ <;> first | (field_simp; ring) | field_simp
  · rw [hgen, rotate_of_zero_angles T h0c h0s, rotate_of_zero_angles T h0c h0s]
  · rw [transform_vector_forward, Option.some_bind, transform_vector_backward,
      rotate_of_zero_angles T h0c h0s, rotate_of_zero_angles T h0c h0s]
    simp [Vector3d.add, Vector3d.sub]

/-- C13 at the point `(2, 3, 5)` with the angles `(0, 0, 90)` and the translation
`(1, 1, 1)`: the round trip gives `(-2, -3, 5)`, the rotation by 90 degrees about the
third axis applied twice. -/
theorem transform_vector_forward_after_backward_witness :
    (transform_vector Trig.quarter_turn ⟨2, 3, 5⟩ ⟨0, 0, 90⟩ ⟨1, 1, 1⟩ "backward").bind
        (fun w => transform_vector Trig.quarter_turn w ⟨0, 0, 90⟩ ⟨1, 1, 1⟩ "forward") =
        some (rotate (rpy_quaternion Trig.quarter_turn ⟨0, 0, 90⟩)
          (rotate (rpy_quaternion Trig.quarter_turn ⟨0, 0, 90⟩) ⟨2, 3, 5⟩)) ∧
      (transform_vector Trig.quarter_turn ⟨1, 0, 0⟩ ⟨0, 0, 90⟩ ⟨0, 0, 0⟩ "backward").bind
        (fun w => transform_vector Trig.quarter_turn w ⟨0, 0, 90⟩ ⟨0, 0, 0⟩ "forward") =
        some ⟨-1, 0, 0⟩ ∧
      (transform_vector Trig.quarter_turn ⟨2, 3, 5⟩ ⟨0, 0, 0⟩ ⟨1, 1, 1⟩ "backward").bind
        (fun w => transform_vector Trig.quarter_turn w ⟨0, 0, 0⟩ ⟨1, 1, 1⟩ "forward") =
        some ⟨2, 3, 5⟩ ∧
      (transform_vector Trig.quarter_turn ⟨2, 3, 5⟩ ⟨0, 0, 0⟩ ⟨1, 1, 1⟩ "forward").bind
        (fun w => transform_vector Trig.quarter_turn w ⟨0, 0, 0⟩ ⟨1, 1, 1⟩ "backward") =
        some ⟨2, 3, 5⟩ :=
  transform_vector_forward_after_backward Trig.quarter_turn ⟨2, 3, 5⟩ ⟨0, 0, 90⟩ ⟨1, 1, 1⟩
    (by decide!) (by decide!) (by decide!) (by decide!)

/-! ## Results on one growth step -/

lemma planner_reachable (_end : Vector3d) (zones : List Vector4d) (obs : List Vector3d)
    (step_size : ℚ) : Reachable Trig.zero_angle (planner _end zones obs step_size) :=
  Reachable.node_characteristics _ _ _ _ _ _
    (Reachable.map_characteristics _ _ _ _
      (Reachable.boundaries _ _ _ _
        (Reachable.start_end _ _ _ (Reachable.constructed zero_state))))

/-- The result of `node_stepping` is the candidate clamped coordinate by coordinate. -/
lemma node_stepping_eq_clamp (s : State) (node v : Vector3d) (r : ℚ) :
    node_stepping s node v r =
      ⟨min (max (stepped_candidate s node v r).x (-s.map_size.x / 2)) (s.map_size.x / 2),
       min (max (stepped_candidate s node v r).y (-s.map_size.y / 2)) (s.map_size.y / 2),
       min (max (stepped_candidate s node v r).z s._min_height) s._max_height⟩ := rfl

/-- What the goal test of a growth step that inserts a node does: the goal is attached
exactly when the segment to the goal passes the check and the squared distance to the
goal is below `step_size` itself. -/
lemma inserted_reached_iff {s s' : State} {sel : NodePtr} {position : Vector3d}
    (hins : Inserted s s' sel position) (hnr : s.reached = false) :
    s'.reached = true ↔
      (check_line_validity_with_pcl position s.end_node.position s.obs_threshold s.obs = true ∧
        sq_separation position s.end_node.position < s.step_size) := by
  rcases hins.goal with hg | hg
  · constructor
    · intro h; rw [hg.1, hnr] at h; exact absurd h (by simp)
    · intro h; exact absurd h hg.2.2.2.2
  · exact ⟨fun _ => hg.2.2.2.2, fun _ => hg.1⟩

/-- C14, failing input: with `step_size = 2` and the goal `(2, 0, 0)` the growth step
inserts the node `(3/10, 0, 0)`; the segment to the goal passes the check and the squared
distance `289/100` is below `step_size² = 4`, but the goal is not attached, because the
code compares the squared distance with `step_size = 2`. -/
theorem search_single_node_goal_test_uses_step_size :
    (search_single_node Trig.zero_angle (planner ⟨2, 0, 0⟩ [] [] 2)
        ⟨⟨1 / 4, 0, 0⟩, 1 / 2, 3 / 5⟩).map
        (fun s' => (s'.heap.map Node.position, s'.reached, s'.nodes, s'.iter)) =
        some ([⟨3 / 10, 0, 0⟩], false, [NodePtr.start_node, NodePtr.heap 0], 1) ∧
      check_line_validity_with_pcl ⟨3 / 10, 0, 0⟩ ⟨2, 0, 0⟩
        (planner ⟨2, 0, 0⟩ [] [] 2).obs_threshold (planner ⟨2, 0, 0⟩ [] [] 2).obs = true ∧
      sq_separation ⟨3 / 10, 0, 0⟩ ⟨2, 0, 0⟩ = 289 / 100 ∧
      sq_separation ⟨3 / 10, 0, 0⟩ ⟨2, 0, 0⟩ < (planner ⟨2, 0, 0⟩ [] [] 2).step_size ^ 2 ∧
      ¬ sq_separation ⟨3 / 10, 0, 0⟩ ⟨2, 0, 0⟩ < (planner ⟨2, 0, 0⟩ [] [] 2).step_size := by
  decide!

/-- C15, failing input: the growth step of `scenario []` with the draws `draw_x` attaches
the goal below the new node `heap 0`; afterwards the goal node is in its own list of
children while its parent is `heap 0`, and the list of children of `heap 0` is empty. -/
theorem search_single_node_goal_is_its_own_child :
    search_single_node Trig.zero_angle (scenario []) draw_x = some (scenario_final []) ∧
      (scenario_final []).reached = true ∧
      (scenario_final []).end_node.parent = some (NodePtr.heap 0) ∧
      (scenario_final []).end_node.children = [NodePtr.end_node] ∧
      (scenario_final []).heap = [⟨[], some NodePtr.start_node, ⟨3 / 5, 0, 0⟩⟩] := by
  decide!

/-- C16, counterexample: with step size `1`, the direction `(1, 1, 1)` and the step factor
`3/5` the candidate is `(3/5, 3/5, 3/5)`; its squared distance from the selected node
`(0,0,0)` is `27/25`, which is neither `(step_size * r)² = 9/25` nor at most
`step_size² = 1`. -/
theorem stepped_candidate_not_at_step_distance :
    stepped_candidate (scenario []) ⟨0, 0, 0⟩ ⟨1, 1, 1⟩ (3 / 5) = ⟨3 / 5, 3 / 5, 3 / 5⟩ ∧
      ((stepped_candidate (scenario []) ⟨0, 0, 0⟩ ⟨1, 1, 1⟩ (3 / 5)).sub
        ⟨0, 0, 0⟩).squaredNorm = 27 / 25 ∧
      ((scenario []).step_size * (3 / 5)) ^ 2 = 9 / 25 ∧
      (scenario []).step_size ^ 2 < 27 / 25 := by
  decide!

/-- C16, amended: the candidate of `node_stepping` before clamping is the selected node
moved by `r * step_size * v`; its squared distance from the selected node is
`(step_size * r)² |v|²`. For a direction with components in `[-1, 1]` and a step factor in
`[0.6, 1.0]` this is at most `3 step_size²`, and it is `(step_size * r)²` when `v` has
length one. -/
theorem stepped_candidate_distance (s : State) (node v : Vector3d) (r : ℚ)
    (hx : -1 ≤ v.x ∧ v.x ≤ 1) (hy : -1 ≤ v.y ∧ v.y ≤ 1) (hz : -1 ≤ v.z ∧ v.z ≤ 1)
    (hr : 3 / 5 ≤ r ∧ r ≤ 1) :
    ((stepped_candidate s node v r).sub node).squaredNorm =
        (s.step_size * r) ^ 2 * v.squaredNorm ∧
      ((stepped_candidate s node v r).sub node).squaredNorm ≤ 3 * s.step_size ^ 2 ∧
      (v.squaredNorm = 1 →
        ((stepped_candidate s node v r).sub node).squaredNorm = (s.step_size * r) ^ 2) := by
  have heq : ((stepped_candidate s node v r).sub node).squaredNorm =
      (s.step_size * r) ^ 2 * v.squaredNorm := by
    simp only [stepped_candidate, Vector3d.sub, Vector3d.add, Vector3d.smul,
      Vector3d.squaredNorm]
    ring
  have hv : v.squaredNorm ≤ 3 := by
    unfold Vector3d.squaredNorm
    nlinarith [hx.1, hx.2, hy.1, hy.2, hz.1, hz.2]
  have hv0 := squaredNorm_nonneg v
  have hr2 : r ^ 2 ≤ 1 := by nlinarith [hr.1, hr.2]
  have hs2 : 0 ≤ s.step_size ^ 2 := sq_nonneg _
  refine ⟨heq, ?_, ?_⟩
  · rw [heq, mul_pow]
    have h1 : s.step_size ^ 2 * r ^ 2 ≤ s.step_size ^ 2 := by nlinarith
    have h2 : 0 ≤ s.step_size ^ 2 * r ^ 2 := by positivity
    nlinarith
  · intro h1; rw [heq, h1, mul_one]

/-- C16, amended, at the input of the counterexample. -/
theorem stepped_candidate_distance_witness :
    ((stepped_candidate (scenario []) ⟨0, 0, 0⟩ ⟨1, 1, 1⟩ (3 / 5)).sub
        ⟨0, 0, 0⟩).squaredNorm =
        ((scenario []).step_size * (3 / 5)) ^ 2 * (Vector3d.mk 1 1 1).squaredNorm ∧
      ((stepped_candidate (scenario []) ⟨0, 0, 0⟩ ⟨1, 1, 1⟩ (3 / 5)).sub
        ⟨0, 0, 0⟩).squaredNorm ≤ 3 * (scenario []).step_size ^ 2 ∧
      ((Vector3d.mk 1 1 1).squaredNorm = 1 →
        ((stepped_candidate (scenario []) ⟨0, 0, 0⟩ ⟨1, 1, 1⟩ (3 / 5)).sub
          ⟨0, 0, 0⟩).squaredNorm = ((scenario []).step_size * (3 / 5)) ^ 2) :=
  stepped_candidate_distance (scenario []) ⟨0, 0, 0⟩ ⟨1, 1, 1⟩ (3 / 5)
    (by decide!) (by decide!) (by decide!) (by decide!)

/-- For a draw in the half-open interval `(0, 1]` the selected index is in range. -/
lemma random_idx_selector_in_range (nodes_size : ℤ) (u : ℚ) (hsize : 1 ≤ nodes_size)
    (h0 : 0 < u) (h1 : u ≤ 1) :
    0 ≤ random_idx_selector nodes_size u ∧ random_idx_selector nodes_size u ≤ nodes_size - 1 := by
  unfold random_idx_selector
  have hsq : (0 : ℚ) < (nodes_size : ℚ) := by exact_mod_cast (by omega : (0 : ℤ) < nodes_size)
  have hpos : 0 < u * (nodes_size : ℚ) := mul_pos h0 hsq
  have hle : u * (nodes_size : ℚ) ≤ ((nodes_size : ℤ) : ℚ) := by nlinarith
  have hc1 : 0 < ⌈u * (nodes_size : ℚ)⌉ := Int.ceil_pos.mpr hpos
  have hc2 : ⌈u * (nodes_size : ℚ)⌉ ≤ nodes_size := Int.ceil_le.mpr hle
  constructor <;> omega

/-- C17, failing input: the draw `u = 0`, which `uniform_real_distribution(0.0, 1.0)` can
return, gives the index `ceil(0 * 1) - 1 = -1` for one node, and the growth step reads
`nodes[-1]`. -/
theorem random_idx_selector_of_zero_draw :
    (0 : ℚ) ≤ 0 ∧ (0 : ℚ) < 1 ∧ random_idx_selector 1 0 = -1 ∧
      (scenario []).nodes.length = 1 ∧
      search_single_node Trig.zero_angle (scenario []) ⟨⟨1, 0, 0⟩, 0, 3 / 5⟩ = none := by
  decide!

/-- C18: when the candidate of a growth step, mapped to the world frame, lies in a no fly
rectangle (bounds included), or when the segment from the selected node to the candidate
fails the collision check, `search_single_node` returns with the state unchanged. -/
theorem search_single_node_rejected_unchanged (T : Trig) (s : State) (d : Draw) (i : ℕ)
    (sel : NodePtr) (sel_node : Node) (w : Vector3d)
    (hidx : random_idx_selector s.nodes.length d.idx_value = (i : ℤ))
    (hsel : s.nodes[i]? = some sel) (hderef : s.deref sel = some sel_node)
    (hw : transform_vector T
      (node_stepping s sel_node.position d.random_vector d.random_value)
      s.rotation s.translation "backward" = some w)
    (hrej : (∃ zone ∈ s.no_fly_zone,
        zone.c0 ≤ w.x ∧ w.x ≤ zone.c1 ∧ zone.c2 ≤ w.y ∧ w.y ≤ zone.c3) ∨
      check_line_validity_with_pcl sel_node.position
        (node_stepping s sel_node.position d.random_vector d.random_value)
        s.obs_threshold s.obs = false) :
    search_single_node T s d = some s := by
  have hlt : i < s.nodes.length := by
    by_contra hc
    rw [List.getElem?_eq_none (by omega)] at hsel
    exact absurd hsel (by simp)
  unfold search_single_node
  simp only [hidx, Int.toNat_ofNat, hsel, hderef]
  have hnot : ¬ ((i : ℤ) < 0 ∨ (s.nodes.length : ℤ) ≤ (i : ℤ)) := by omega
  rw [if_neg hnot]
  simp only [hw]
  by_cases hnf : in_no_fly_zone s.no_fly_zone w = true
  · rw [if_pos hnf]
  · rw [if_neg hnf]
    rcases hrej with ⟨zone, hz, h1, h2, h3, h4⟩ | hchk
    · exfalso
      apply hnf
      unfold in_no_fly_zone
      rw [List.any_eq_true]
      exact ⟨zone, hz, by simp only [decide_eq_true_eq, ge_iff_le]; exact ⟨h2, h1, h4, h3⟩⟩
    · simp [hchk]

/-- C18 at a planner with the no fly zone `x ∈ [1/2, 1]`, `y ∈ [-1, 1]`: the candidate
`(3/5, 0, 0)` lies in the zone and the state stays as it was. -/
theorem search_single_node_rejected_unchanged_witness :
    search_single_node Trig.zero_angle (planner ⟨1, 0, 0⟩ [⟨1 / 2, 1, -1, 1⟩] [] 1) draw_x =
      some (planner ⟨1, 0, 0⟩ [⟨1 / 2, 1, -1, 1⟩] [] 1) :=
  search_single_node_rejected_unchanged Trig.zero_angle
    (planner ⟨1, 0, 0⟩ [⟨1 / 2, 1, -1, 1⟩] [] 1) draw_x 0 NodePtr.start_node
    ⟨[], none, ⟨0, 0, 0⟩⟩ ⟨3 / 5, 0, 0⟩ (by decide!) (by decide!) (by decide!) (by decide!)
    (Or.inl ⟨⟨1 / 2, 1, -1, 1⟩, by simp [planner, initialize_node_characteristics,
      initialize_map_characteristics, initialize_boundaries], by decide!⟩)

/-! ## Results on the configuration counter and the spacing of the samples -/

lemma configCall_apply_counter (s : State) (c : ConfigCall) :
    (c.apply s).initialized = s.initialized + 1 ∧ (c.apply s).reached = s.reached := by
  cases c <;> exact ⟨rfl, rfl⟩

lemma configure_counter : ∀ (calls : List ConfigCall) (s : State),
    (configure s calls).initialized = s.initialized + calls.length ∧
      (configure s calls).reached = s.reached
  | [], s => by simp [configure]
  | c :: calls, s => by
    have ih := configure_counter calls (c.apply s)
    have h1 := configCall_apply_counter s c
    simp only [configure, List.foldl_cons] at ih ⊢
    rw [ih.1, ih.2, h1.1, h1.2]
    refine ⟨?_, rfl⟩
    simp only [List.length_cons, Nat.cast_add, Nat.cast_one]
    ring

/-- C19: after any sequence of configuration calls on a fresh planner, `run_rrt_module`
returns the empty sequence with the state unchanged and without a growth step when the
number of calls is not four; when it is four, whichever groups the calls belong to, the
run cannot return without a growth step, and its first action is the call of
`search_single_node` on the configured state. -/
theorem run_rrt_module_searches_iff_four_calls (T : Trig) (junk : State)
    (calls : List ConfigCall) (t0 : ℚ) :
    (calls.length ≠ 4 → ∀ trace,
        run_rrt_module T (configure (State.constructed junk) calls) t0 trace =
          some (configure (State.constructed junk) calls, [])) ∧
      (calls.length = 4 →
        run_rrt_module T (configure (State.constructed junk) calls) t0 [] = none ∧
        ∀ d now rest,
          run_rrt_module T (configure (State.constructed junk) calls) t0 ((d, now) :: rest) =
            (search_single_node T (configure (State.constructed junk) calls) d).bind
              (fun s1 => if now - t0 > s1.timeout then some (s1, [])
                else run_rrt_module T s1 t0 rest)) := by
  obtain ⟨hcount, hreached⟩ := configure_counter calls (State.constructed junk)
  have hinit : (configure (State.constructed junk) calls).initialized = (calls.length : ℤ) := by
    rw [hcount]; simp [State.constructed]
  have hnr : (configure (State.constructed junk) calls).reached = false := by
    rw [hreached]; rfl
  constructor
  · intro hne trace
    unfold run_rrt_module
    have : (configure (State.constructed junk) calls).initialized ≠ 4 := by
      rw [hinit]; intro h; apply hne; exact_mod_cast h
    rw [if_pos this]
  · intro h4
    have h4' : (configure (State.constructed junk) calls).initialized = 4 := by
      rw [hinit, h4]; rfl
    constructor
    · unfold run_rrt_module
      simp [h4', run_loop, hnr]
    · intro d now rest
      unfold run_rrt_module
      simp only [h4', ne_eq, not_true_eq_false, if_false]
      rw [run_loop]
      simp only [hnr, Bool.false_eq_true, if_false]
      cases hstep : search_single_node T (configure (State.constructed junk) calls) d with
      | none => simp
      | some s1 =>
        have hcfg := (search_single_node_frame T _ s1 d hstep).1
        have h41 : s1.initialized = 4 := by rw [hcfg.2.2.2.1]; exact h4'
        simp only [Option.some_bind, h41, ne_eq, not_true_eq_false, if_false]
        split_ifs with hto
        · rfl
        · rfl

/-- The squared distance between two consecutive samples: `|p - q|² / (n - 1)²`. -/
lemma squaredNorm_consecutive_samples (p q : Vector3d) (n : ℤ) (i : ℕ) :
    ((sample_at p q n (i + 1)).sub (sample_at p q n i)).squaredNorm =
      (p.sub q).squaredNorm / ((n : ℚ) - 1) ^ 2 := by
  simp only [sample_at, Vector3d.sub, Vector3d.squaredNorm, Nat.cast_add, Nat.cast_one]
  by_cases h : (n : ℚ) - 1 = 0
  · simp [h]
  · field_simp
    ring

/-- With a count of at least two, consecutive samples are farther apart than the
threshold, and at most twice the threshold. -/
lemma consecutive_samples_spacing (p q : Vector3d) (t : ℚ) (ht : 0 < t)
    (hn : 2 ≤ ceil_norm_div (p.sub q) t) (i : ℕ) :
    t * t < ((sample_at p q (ceil_norm_div (p.sub q) t) (i + 1)).sub
        (sample_at p q (ceil_norm_div (p.sub q) t) i)).squaredNorm ∧
      ((sample_at p q (ceil_norm_div (p.sub q) t) (i + 1)).sub
        (sample_at p q (ceil_norm_div (p.sub q) t) i)).squaredNorm ≤ (2 * t) * (2 * t) := by
  rw [squaredNorm_consecutive_samples]
  rw [ceil_norm_div_pos_threshold _ t ht] at hn ⊢
  have hd := squaredNorm_le_count_sq (p.sub q) t ht
  set k := ⌈(p.sub q).squaredNorm / (t * t)⌉₊ with hk
  set n : ℕ := ceil_sqrt k with hnn
  have hn2 : 2 ≤ n := by exact_mod_cast hn
  have hnq : (2 : ℚ) ≤ (n : ℚ) := by exact_mod_cast hn2
  have hlt : (n - 1) * (n - 1) < k := lt_of_lt_ceil_sqrt k (n - 1) (by omega)
  have hlt2 : (((n - 1) * (n - 1) : ℕ) : ℚ) < (p.sub q).squaredNorm / (t * t) :=
    (Nat.lt_ceil).mp hlt
  have htt : 0 < t * t := mul_pos ht ht
  rw [lt_div_iff₀ htt] at hlt2
  have hcast : ((n - 1 : ℕ) : ℚ) = (n : ℚ) - 1 := by
    rw [Nat.cast_sub (by omega)]; simp
  push_cast at hlt2
  rw [hcast] at hlt2
  have hm : (0 : ℚ) < ((n : ℚ) - 1) ^ 2 := by
    have : (0 : ℚ) < (n : ℚ) - 1 := by linarith
    positivity
  simp only [Int.cast_natCast]
  constructor
  · rw [lt_div_iff₀ hm]; nlinarith
  · rw [div_le_iff₀ hm]
    have hnm : (n : ℚ) ^ 2 ≤ 4 * ((n : ℚ) - 1) ^ 2 := by nlinarith
    have := mul_le_mul_of_nonneg_right hnm htt.le
    nlinarith

/-- C20, failing input: from `(0,0,0)` to `(10,0,0)` with threshold `1` the distance `10`
exceeds the threshold, the count is `10`, the samples are `10/9` apart, and the squared
distance `100/81` of the first two samples exceeds the squared threshold. -/
theorem line_vector_spacing_exceeds_threshold :
    (1 : ℚ) * 1 < ((Vector3d.mk 0 0 0).sub ⟨10, 0, 0⟩).squaredNorm ∧
      ceil_norm_div ((Vector3d.mk 0 0 0).sub ⟨10, 0, 0⟩) 1 = 10 ∧
      (line_vector ⟨0, 0, 0⟩ ⟨10, 0, 0⟩ 10)[0]? = some ⟨0, 0, 0⟩ ∧
      (line_vector ⟨0, 0, 0⟩ ⟨10, 0, 0⟩ 10)[1]? = some ⟨10 / 9, 0, 0⟩ ∧
      ((Vector3d.mk (10 / 9) 0 0).sub ⟨0, 0, 0⟩).squaredNorm = 100 / 81 ∧
      (1 : ℚ) * 1 < 100 / 81 := by
  decide!

/-! ## No fly zones -/

lemma outsideNoFly_of_test (T : Trig) (s : State) (p w : Vector3d)
    (hw : transform_vector T p s.rotation s.translation "backward" = some w)
    (hnf : in_no_fly_zone s.no_fly_zone w = false) : OutsideNoFly T s p := by
  refine ⟨w, hw, ?_⟩
  intro zone hz hin
  have : in_no_fly_zone s.no_fly_zone w = true := by
    unfold in_no_fly_zone
    rw [List.any_eq_true]
    exact ⟨zone, hz, by
      simp only [decide_eq_true_eq, ge_iff_le]; exact ⟨hin.2.1, hin.1, hin.2.2.2, hin.2.2.1⟩⟩
  rw [hnf] at this
  exact absurd this (by simp)

lemma outsideNoFly_congr (T : Trig) {s s' : State} (hcfg : SameConfig s s') (p : Vector3d)
    (h : OutsideNoFly T s p) : OutsideNoFly T s' p := by
  obtain ⟨w, hw, hz⟩ := h
  refine ⟨w, ?_, ?_⟩
  · rw [hcfg.2.2.2.2.2.2.2.2.2.2.1, hcfg.2.2.2.2.2.2.2.2.2.2.2]; exact hw
  · rw [hcfg.2.1]; exact hz

/-- Up to the fourth configuration call and during the growth that follows it, every
heap node lies outside the no fly zones. -/
lemma Reachable.heap_outside_no_fly {T : Trig} {s : State} (h : Reachable T s) :
    s.initialized ≤ 4 → ∀ (k : ℕ) (nd : Node), s.heap[k]? = some nd →
      OutsideNoFly T s nd.position := by
  induction h with
  | constructed junk =>
    intro _ k nd hnd
    simp [State.constructed] at hnd
  | start_end s a b hs _ =>
    intro h4 k nd hnd
    have hlt : s.initialized < 4 := by simp [initialize_start_end] at h4; omega
    have hheap : s.heap = [] := ((hs.inv (by omega)).2 hlt).1
    simp [initialize_start_end, hheap] at hnd
  | boundaries s a b z hs _ =>
    intro h4 k nd hnd
    have hlt : s.initialized < 4 := by simp [initialize_boundaries] at h4; omega
    have hheap : s.heap = [] := ((hs.inv (by omega)).2 hlt).1
    simp [initialize_boundaries, hheap] at hnd
  | map_characteristics s pc m o hs _ =>
    intro h4 k nd hnd
    have hlt : s.initialized < 4 := by simp [initialize_map_characteristics] at h4; omega
    have hheap : s.heap = [] := ((hs.inv (by omega)).2 hlt).1
    simp [initialize_map_characteristics, hheap] at hnd
  | node_characteristics s a b c r t hs _ =>
    intro h4 k nd hnd
    have hlt : s.initialized < 4 := by simp [initialize_node_characteristics] at h4; omega
    have hheap : s.heap = [] := ((hs.inv (by omega)).2 hlt).1
    simp [initialize_node_characteristics, hheap] at hnd
  | growth s s' d hs h4 hnr hstep ih =>
    intro _ k nd hnd
    obtain ⟨_, sel, sel_node, w, _, _, _, hw, hcase⟩ := search_single_node_spec T s s' d hstep
    rcases hcase with ⟨rfl, _⟩ | ⟨hnf, _, hins⟩
    · exact ih (by omega) k nd hnd
    · have hk : k < s'.heap.length := by
        by_contra hc
        rw [List.getElem?_eq_none (by omega)] at hnd
        exact absurd hnd (by simp)
      rw [hins.heap_length] at hk
      have hl := @link_of_deref s' (NodePtr.heap k) nd hnd
      apply outsideNoFly_congr T hins.config
      rcases Nat.lt_succ_iff_lt_or_eq.mp hk with hlt | heq
      · rw [hins.link_old k (by omega)] at hl
        obtain ⟨nd0, hnd0, _, hpos⟩ := deref_of_link hl
        rw [← hpos]
        exact ih (by omega) k nd0 hnd0
      · subst heq
        rw [hins.link_new] at hl
        simp only [Option.some.injEq, Prod.mk.injEq] at hl
        rw [← hl.2]
        exact outsideNoFly_of_test T s _ w hw hnf

/-- The parent chain of a heap node consists of heap nodes, except for its last node. -/
lemma TreeInv.chain_in_heap {s : State} (hinv : TreeInv s) :
    ∀ (k : ℕ) (nd : Node), s.heap[k]? = some nd →
      ∃ rest, ParentChain s nd rest ∧ rest ≠ [] ∧ rest.length ≤ k + 1 ∧
        ∀ m ∈ rest.dropLast, ∃ j : ℕ, s.heap[j]? = some m := by
  intro k
  induction k using Nat.strong_induction_on with
  | _ k ih =>
    intro nd hnd
    have hk : k < s.heap.length := by
      by_contra hc
      rw [List.getElem?_eq_none (by omega)] at hnd
      exact absurd hnd (by simp)
    obtain ⟨par, pos, ppar, ppos, hl, hpar, hlp, _⟩ := hinv.heap_ok k hk
    have hl' := @link_of_deref s (NodePtr.heap k) nd hnd
    rw [hl] at hl'
    simp only [Option.some.injEq, Prod.mk.injEq] at hl'
    obtain ⟨hparent, _⟩ := hl'
    obtain ⟨pn, hpn, _, _⟩ := deref_of_link hlp
    rcases hpar with rfl | ⟨j, rfl, hj⟩
    · have hne : s.nodes ≠ [] := hinv.heap_nodes (List.ne_nil_of_length_pos (by omega))
      have hroot := hinv.root hne
      simp only [State.deref, Option.some.injEq] at hpn
      subst hpn
      exact ⟨[s.start_node], ⟨⟨NodePtr.start_node, hparent.symm, rfl⟩, hroot⟩, by simp,
        by simp, by simp⟩
    · simp only [State.deref] at hpn
      obtain ⟨rest, hch, hne, hlen, hmem⟩ := ih j hj pn hpn
      refine ⟨pn :: rest, ⟨⟨NodePtr.heap j, hparent.symm, hpn⟩, hch⟩, by simp,
        by simp; omega, ?_⟩
      intro m hm
      cases rest with
      | nil => exact absurd rfl hne
      | cons r rest' =>
        simp only [List.dropLast_cons₂, List.mem_cons] at hm
        rcases hm with rfl | hm
        · exact ⟨j, hpn⟩
        · exact hmem m (by simpa using hm)

/-- The path returned for a reached goal: the goal position, then positions of heap
nodes. -/
lemma path_extraction_heap_points (T : Trig) (s : State) (hs : Reachable T s)
    (h4 : s.initialized = 4) (hr : s.reached = true) :
    ∃ pts, path_extraction s (s.heap.length + 1) = some (s.end_node.position :: pts) ∧
      pts ≠ [] ∧ ∀ p ∈ pts, ∃ (j : ℕ) (nd : Node), s.heap[j]? = some nd ∧ nd.position = p := by
  have hinv := hs.treeInv h4
  obtain ⟨k, pos, ppar, hpar, hk, hl, _⟩ := hinv.goal_ok hr
  obtain ⟨nd, hnd, _, _⟩ := deref_of_link hl
  simp only [State.deref] at hnd
  obtain ⟨rest, hch, hne, hlen, hmem⟩ := hinv.chain_in_heap k nd hnd
  have hchain : ParentChain s s.end_node (nd :: rest) := ⟨⟨NodePtr.heap k, hpar, hnd⟩, hch⟩
  have hpath := path_extraction_chain s (nd :: rest) (s.heap.length + 1) hchain (by simp)
    (by simp; omega)
  cases rest with
  | nil => exact absurd rfl hne
  | cons r rest' =>
    refine ⟨((nd :: (r :: rest').dropLast)).map Node.position, ?_, by simp, ?_⟩
    · rw [hpath]; simp [List.dropLast]
    · intro p hp
      simp only [List.map_cons, List.mem_cons, List.mem_map] at hp
      rcases hp with rfl | ⟨m, hm, rfl⟩
      · exact ⟨k, nd, hnd, rfl⟩
      · obtain ⟨j, hj⟩ := hmem m hm
        exact ⟨j, m, hj, rfl⟩

/-- C11, counterexample: with the no fly zone `x ∈ [9/10, 11/10]`, `y ∈ [-1, 1]` and the
goal `(1, 0, 0)` inside it, one growth step inserts `(3/5, 0, 0)` and attaches the goal;
the returned path starts with the goal, whose world frame position `(1, 0, 0)` lies in
the zone. -/
theorem run_rrt_module_path_goal_in_no_fly_zone :
    (run_rrt_module Trig.zero_angle (planner ⟨1, 0, 0⟩ [⟨9 / 10, 11 / 10, -1, 1⟩] [] 1) 0
        [(draw_x, 0)]).map Prod.snd = some [⟨1, 0, 0⟩, ⟨3 / 5, 0, 0⟩] ∧
      (planner ⟨1, 0, 0⟩ [⟨9 / 10, 11 / 10, -1, 1⟩] [] 1).no_fly_zone =
        [⟨9 / 10, 11 / 10, -1, 1⟩] ∧
      transform_vector Trig.zero_angle ⟨1, 0, 0⟩
        (planner ⟨1, 0, 0⟩ [⟨9 / 10, 11 / 10, -1, 1⟩] [] 1).rotation
        (planner ⟨1, 0, 0⟩ [⟨9 / 10, 11 / 10, -1, 1⟩] [] 1).translation "backward" =
        some ⟨1, 0, 0⟩ ∧
      ((9 / 10 : ℚ) ≤ 1 ∧ (1 : ℚ) ≤ 11 / 10 ∧ (-1 : ℚ) ≤ 0 ∧ (0 : ℚ) ≤ 1) := by
  decide!

/-- C11, amended: for every path returned by `run_rrt_module`, every point after the
first one (the goal), mapped to the world frame by `transform_vector` in the mode
"backward" with the configured rotation and translation, lies outside every configured
no fly rectangle. -/
theorem run_rrt_module_path_outside_no_fly (T : Trig) (s s' : State) (t0 : ℚ)
    (trace : List (Draw × ℚ)) (path : List Vector3d) (hs : Reachable T s)
    (hrun : run_rrt_module T s t0 trace = some (s', path)) :
    ∀ p ∈ path.tail,
      ∃ w, transform_vector T p s.rotation s.translation "backward" = some w ∧
        ∀ zone ∈ s.no_fly_zone,
          ¬ (zone.c0 ≤ w.x ∧ w.x ≤ zone.c1 ∧ zone.c2 ≤ w.y ∧ w.y ≤ zone.c3) := by
  unfold run_rrt_module at hrun
  split_ifs at hrun with h4
  · simp only [Option.some.injEq, Prod.mk.injEq] at hrun
    obtain ⟨_, rfl⟩ := hrun
    intro p hp; simp at hp
  · have h4' : s.initialized = 4 := by simpa using h4
    split at hrun
    · exact absurd hrun (by simp)
    rename_i s2 error hl
    obtain ⟨hs2, hcfg, _, hr2⟩ := run_loop_spec T t0 trace s s2 error hs h4' hl
    cases error with
    | true =>
      simp only [if_true, Option.some.injEq, Prod.mk.injEq] at hrun
      obtain ⟨_, rfl⟩ := hrun
      intro p hp; simp at hp
    | false =>
      simp only [Bool.false_eq_true, if_false] at hrun
      have h42 : s2.initialized = 4 := by rw [hcfg.2.2.2.1]; exact h4'
      obtain ⟨pts, hpath, _, hpts⟩ := path_extraction_heap_points T s2 hs2 h42 (hr2 rfl)
      rw [hpath] at hrun
      simp only [Option.some.injEq, Prod.mk.injEq] at hrun
      obtain ⟨_, rfl⟩ := hrun
      intro p hp
      simp only [List.tail_cons] at hp
      obtain ⟨j, nd, hnd, rfl⟩ := hpts p hp
      obtain ⟨w, hw, hz⟩ := hs2.heap_outside_no_fly (by omega) j nd hnd
      refine ⟨w, ?_, ?_⟩
      · rw [← hcfg.2.2.2.2.2.2.2.2.2.2.1, ← hcfg.2.2.2.2.2.2.2.2.2.2.2]; exact hw
      · rw [← hcfg.2.1]; exact hz

/-- C11, amended, at the run of the counterexample: the second point `(3/5, 0, 0)` of the
path lies outside the zone. -/
theorem run_rrt_module_path_outside_no_fly_witness :
    ∃ w, transform_vector Trig.zero_angle ⟨3 / 5, 0, 0⟩
        (planner ⟨1, 0, 0⟩ [⟨9 / 10, 11 / 10, -1, 1⟩] [] 1).rotation
        (planner ⟨1, 0, 0⟩ [⟨9 / 10, 11 / 10, -1, 1⟩] [] 1).translation "backward" = some w ∧
      ∀ zone ∈ (planner ⟨1, 0, 0⟩ [⟨9 / 10, 11 / 10, -1, 1⟩] [] 1).no_fly_zone,
        ¬ (zone.c0 ≤ w.x ∧ w.x ≤ zone.c1 ∧ zone.c2 ≤ w.y ∧ w.y ≤ zone.c3) :=
  run_rrt_module_path_outside_no_fly Trig.zero_angle
    (planner ⟨1, 0, 0⟩ [⟨9 / 10, 11 / 10, -1, 1⟩] [] 1)
    { scenario_final [] with no_fly_zone := [⟨9 / 10, 11 / 10, -1, 1⟩] } 0 [(draw_x, 0)]
    [⟨1, 0, 0⟩, ⟨3 / 5, 0, 0⟩] (planner_reachable _ _ _ _) (by decide!) ⟨3 / 5, 0, 0⟩
    (by simp)

/-! ## Parents come first in the node collection -/

lemma nodesOrdered_of_untouched {s : State} (hu : Untouched s) : NodesOrdered s := by
  refine ⟨?_, ?_⟩
  · intro k nd hnd
    rw [hu.1] at hnd
    simp at hnd
  · intro hr
    rw [hu.2.1] at hr
    exact absurd hr (by simp)

lemma getElem?_lt_length {α : Type} {l : List α} {i : ℕ} {a : α} (h : l[i]? = some a) :
    i < l.length := by
  by_contra hc
  rw [List.getElem?_eq_none (by omega)] at h
  exact absurd h (by simp)

lemma getElem?_append_of_some {α : Type} {l : List α} {i : ℕ} {a : α} (h : l[i]? = some a)
    (l' : List α) : (l ++ l')[i]? = some a := by
  rw [List.getElem?_append_left (getElem?_lt_length h)]
  exact h

/-- Up to the fourth configuration call and during the growth that follows it, parents
come before their children in `nodes`. -/
lemma Reachable.nodes_ordered {T : Trig} {s : State} (h : Reachable T s) :
    s.initialized ≤ 4 → NodesOrdered s := by
  induction h with
  | constructed junk =>
    intro h4
    exact nodesOrdered_of_untouched
      (((Reachable.constructed junk : Reachable T _).inv h4).2 (by simp [State.constructed]))
  | start_end s a b hs _ =>
    intro h4
    have hlt : s.initialized < 4 := by simp [initialize_start_end] at h4; omega
    obtain ⟨hheap, hr, _⟩ := (hs.inv (by omega)).2 hlt
    refine ⟨?_, ?_⟩
    · intro k nd hnd; simp [initialize_start_end, hheap] at hnd
    · intro hr'; simp [initialize_start_end, hr] at hr'
  | boundaries s a b z hs _ =>
    intro h4
    have hlt : s.initialized < 4 := by simp [initialize_boundaries] at h4; omega
    obtain ⟨hheap, hr, _⟩ := (hs.inv (by omega)).2 hlt
    refine ⟨?_, ?_⟩
    · intro k nd hnd; simp [initialize_boundaries, hheap] at hnd
    · intro hr'; simp [initialize_boundaries, hr] at hr'
  | map_characteristics s pc m o hs _ =>
    intro h4
    have hlt : s.initialized < 4 := by simp [initialize_map_characteristics] at h4; omega
    obtain ⟨hheap, hr, _⟩ := (hs.inv (by omega)).2 hlt
    refine ⟨?_, ?_⟩
    · intro k nd hnd; simp [initialize_map_characteristics, hheap] at hnd
    · intro hr'; simp [initialize_map_characteristics, hr] at hr'
  | node_characteristics s a b c r t hs _ =>
    intro h4
    have hlt : s.initialized < 4 := by simp [initialize_node_characteristics] at h4; omega
    obtain ⟨hheap, hr, _⟩ := (hs.inv (by omega)).2 hlt
    refine ⟨?_, ?_⟩
    · intro k nd hnd; simp [initialize_node_characteristics, hheap] at hnd
    · intro hr'; simp [initialize_node_characteristics, hr] at hr'
  | growth s s' d hs h4 hnr hstep ih =>
    intro _
    obtain ⟨hold, _⟩ := ih (by omega)
    obtain ⟨i, sel, sel_node, _, _, hsel, _, _, hcase⟩ := search_single_node_spec T s s' d hstep
    rcases hcase with ⟨rfl, _⟩ | ⟨_, _, hins⟩
    · exact ih (by omega)
    have hi : i < s.nodes.length := getElem?_lt_length hsel
    have hnodes : ∃ tail, s'.nodes = s.nodes ++ (NodePtr.heap s.heap.length :: tail) := by
      rcases hins.goal with hg | hg
      · exact ⟨[], hg.2.2.1⟩
      · exact ⟨[NodePtr.end_node], hg.2.2.1⟩
    obtain ⟨tail, htail⟩ := hnodes
    have hnew : s'.nodes[s.nodes.length]? = some (NodePtr.heap s.heap.length) := by
      rw [htail, List.getElem?_append_right (le_refl _)]
      simp
    refine ⟨?_, ?_⟩
    · intro k nd hnd
      have hk : k < s'.heap.length := getElem?_lt_length hnd
      rw [hins.heap_length] at hk
      have hl := @link_of_deref s' (NodePtr.heap k) nd hnd
      rcases Nat.lt_succ_iff_lt_or_eq.mp hk with hlt | heq
      · rw [hins.link_old k (by omega)] at hl
        obtain ⟨nd0, hnd0, hpar0, _⟩ := deref_of_link hl
        obtain ⟨par, a, b, hp, hab, ha, hb⟩ := hold k nd0 hnd0
        refine ⟨par, a, b, ?_, hab, ?_, ?_⟩
        · rw [← hpar0]; exact hp
        · rw [htail]; exact getElem?_append_of_some ha _
        · rw [htail]; exact getElem?_append_of_some hb _
      · subst heq
        rw [hins.link_new] at hl
        simp only [Option.some.injEq, Prod.mk.injEq] at hl
        refine ⟨sel, i, s.nodes.length, hl.1.symm, hi, ?_, hnew⟩
        rw [htail]; exact getElem?_append_of_some hsel _
    · intro hr
      rcases hins.goal with hg | hg
      · rw [hg.1, hnr] at hr; exact absurd hr (by simp)
      · refine ⟨NodePtr.heap s.heap.length, s.nodes.length, s.nodes.length + 1, hg.2.1,
          by omega, hnew, ?_⟩
        rw [hg.2.2.1, List.getElem?_append_right (by omega)]
        simp

/-- The parent chain of a heap node ends at the start node. -/
lemma TreeInv.chain_to_start {s : State} (hinv : TreeInv s) :
    ∀ (k : ℕ) (nd : Node), s.heap[k]? = some nd →
      ∃ rest, ParentChain s nd rest ∧ rest.length ≤ k + 1 ∧
        rest.getLast? = some s.start_node := by
  intro k
  induction k using Nat.strong_induction_on with
  | _ k ih =>
    intro nd hnd
    have hk : k < s.heap.length := getElem?_lt_length hnd
    obtain ⟨par, pos, ppar, ppos, hl, hpar, hlp, _⟩ := hinv.heap_ok k hk
    have hl' := @link_of_deref s (NodePtr.heap k) nd hnd
    rw [hl] at hl'
    simp only [Option.some.injEq, Prod.mk.injEq] at hl'
    obtain ⟨hparent, _⟩ := hl'
    obtain ⟨pn, hpn, _, _⟩ := deref_of_link hlp
    rcases hpar with rfl | ⟨j, rfl, hj⟩
    · have hne : s.nodes ≠ [] := hinv.heap_nodes (List.ne_nil_of_length_pos (by omega))
      have hroot := hinv.root hne
      simp only [State.deref, Option.some.injEq] at hpn
      subst hpn
      exact ⟨[s.start_node], ⟨⟨NodePtr.start_node, hparent.symm, rfl⟩, hroot⟩, by simp,
        by simp⟩
    · simp only [State.deref] at hpn
      obtain ⟨rest, hch, hlen, hlast⟩ := ih j hj pn hpn
      refine ⟨pn :: rest, ⟨⟨NodePtr.heap j, hparent.symm, hpn⟩, hch⟩, by simp; omega, ?_⟩
      cases rest with
      | nil => simp at hlast
      | cons r rest' => simpa [List.getLast?_cons_cons] using hlast

/-- C21: in every state reached by configuration calls followed by growth steps, each
node inserted by a growth step has a parent that stands at a smaller index of `nodes`, and
so has the goal node once it is attached; the parent chain of every heap node reaches the
start node, which has no parent, within as many steps as the heap index plus one; and
when `reached` is true `path_extraction` returns a path, the same for every amount of
fuel from the number of heap nodes plus one on. -/
theorem parent_chains_reach_root (T : Trig) (s : State) (hs : Reachable T s)
    (h4 : s.initialized = 4) :
    (∀ (k : ℕ) (nd : Node), s.heap[k]? = some nd →
        ∃ (par : NodePtr) (i j : ℕ), nd.parent = some par ∧ i < j ∧
          s.nodes[i]? = some par ∧ s.nodes[j]? = some (NodePtr.heap k)) ∧
      (s.reached = true →
        ∃ (par : NodePtr) (i j : ℕ), s.end_node.parent = some par ∧ i < j ∧
          s.nodes[i]? = some par ∧ s.nodes[j]? = some NodePtr.end_node) ∧
      (∀ (k : ℕ) (nd : Node), s.heap[k]? = some nd →
        ∃ rest, ParentChain s nd rest ∧ rest.length ≤ k + 1 ∧
          rest.getLast? = some s.start_node) ∧
      (s.reached = true →
        ∃ path, path ≠ [] ∧
          ∀ fuel, s.heap.length + 1 ≤ fuel → path_extraction s fuel = some path) := by
  obtain ⟨hheap, hgoal⟩ := hs.nodes_ordered (by omega)
  have hinv := hs.treeInv h4
  refine ⟨hheap, hgoal, hinv.chain_to_start, ?_⟩
  intro hr
  obtain ⟨anc, hch, h2, hlen, _⟩ := hinv.chain_of_goal hr
  have hne : anc ≠ [] := by intro h0; rw [h0] at h2; simp at h2
  refine ⟨((s.end_node :: anc).dropLast).map Node.position, ?_, ?_⟩
  · cases anc with
    | nil => exact absurd rfl hne
    | cons a rest => simp [List.dropLast]
  · intro fuel hfuel
    exact path_extraction_chain s anc fuel hch hne (by omega)

lemma scenario_final_reachable : Reachable Trig.zero_angle (scenario_final []) :=
  Reachable.growth (scenario []) (scenario_final []) draw_x (scenario_reachable [])
    (by decide!) (by decide!) (by decide!)

/-- C21 at the final state of the run of `scenario []`, where the node collection is the
start node, the inserted node and the goal node. -/
theorem parent_chains_reach_root_witness :
    (∀ (k : ℕ) (nd : Node), (scenario_final []).heap[k]? = some nd →
        ∃ (par : NodePtr) (i j : ℕ), nd.parent = some par ∧ i < j ∧
          (scenario_final []).nodes[i]? = some par ∧
          (scenario_final []).nodes[j]? = some (NodePtr.heap k)) ∧
      ((scenario_final []).reached = true →
        ∃ (par : NodePtr) (i j : ℕ), (scenario_final []).end_node.parent = some par ∧ i < j ∧
          (scenario_final []).nodes[i]? = some par ∧
          (scenario_final []).nodes[j]? = some NodePtr.end_node) ∧
      (∀ (k : ℕ) (nd : Node), (scenario_final []).heap[k]? = some nd →
        ∃ rest, ParentChain (scenario_final []) nd rest ∧ rest.length ≤ k + 1 ∧
          rest.getLast? = some (scenario_final []).start_node) ∧
      ((scenario_final []).reached = true →
        ∃ path, path ≠ [] ∧
          ∀ fuel, (scenario_final []).heap.length + 1 ≤ fuel →
            path_extraction (scenario_final []) fuel = some path) :=
  parent_chains_reach_root Trig.zero_angle (scenario_final []) scenario_final_reachable
    (by decide!)

end rrt_server
